import Mathlib

/-!
# Verification development for `triplet_challenge.cpp`

Shallow embedding of `src/src/triplet_challenge.cpp`.

Modelling conventions.

* A `char` buffer together with its length is a `List Nat`: the list holds exactly the
  bytes `buffer[0 .. length)`, each byte being its unsigned value.
* `std::size_t` offsets are natural numbers; no offset of the program exceeds twice the
  buffer length, so no wrap-around is modelled for their sums. A difference of offsets is
  the truncated difference; the lemmas on the loops (`calculateTripletsLoop_step`,
  `chunkBounds_inside`, `chunkBounds_outside`) show that the minuend is never the smaller
  one where a difference is taken.
* `std::string_view::substr` throws `std::out_of_range` when the position exceeds the
  size of the view: `substr` returns `none` there, and every function that calls it
  returns an `Option`.
* `while` loops whose trip count is not syntactically bounded carry a fuel argument;
  running out of fuel is `none` as well, and the theorems show that the fuel supplied
  by the top-level functions always suffices.
* `std::unordered_map<std::string_view, std::atomic_uint>` is an association list with
  distinct keys, new keys being appended; two keys are equal when their text is.
  Its iteration order is not specified by the language: every theorem about the selection
  loop quantifies over the visiting order.  Counts are natural numbers (inputs with fewer
  than `2^32` occurrences of one triplet).
* The constructor of the table is standard-library code: `newTripletMap` lets it fail
  only for a bucket count whose bucket array cannot fit a 64-bit address space.
* Worker threads are run one after the other, in the order in which they are created.
-/

namespace TripletChallenge

/-! ## Character classes (`<cctype>`, "C" locale) -/

/-- The `std::isalnum` of the "C" locale on a byte value: decimal digits and the
ASCII letters. -/
def isalnum (c : Nat) : Bool :=
  (48 ≤ c && c ≤ 57) || (65 ≤ c && c ≤ 90) || (97 ≤ c && c ≤ 122)

/-- The `std::tolower` of the "C" locale on a byte value. -/
def tolower (c : Nat) : Nat :=
  if 65 ≤ c ∧ c ≤ 90 then c + 32 else c

/-- Source lines 32-34: `!(std::isalnum(c) || c == '\'')`. -/
def shouldSkipCharacter (c : Nat) : Bool :=
  !(isalnum c || c == 39)

/-! ## Tokeniser -/

/-- The enumeration `FindType` used by `findGeneric`. -/
inductive FindType where
  | FIRST_CHARACTER
  | FIRST_NON_CHARACTER
  deriving DecidableEq, Repr

/-- The lambda `method` of `findGeneric` (source lines 37-43). -/
def findGenericMethod (type : FindType) (c : Nat) : Bool :=
  if type = FindType.FIRST_CHARACTER then shouldSkipCharacter c
  else !shouldSkipCharacter c

/-- Source lines 36-55: the number of leading bytes of `buffer` on which `method`
holds. -/
def findGeneric (buffer : List Nat) (type : FindType) : Nat :=
  match buffer with
  | [] => 0
  | c :: rest => if findGenericMethod type c then findGeneric rest type + 1 else 0

/-- Source lines 57-59. -/
def findFirstCharacter (buffer : List Nat) : Nat :=
  findGeneric buffer FindType.FIRST_CHARACTER

/-- Source lines 61-63. -/
def findFirstNonCharacter (buffer : List Nat) : Nat :=
  findGeneric buffer FindType.FIRST_NON_CHARACTER

/-- The call `std::string_view::substr(pos, count)`: `none` stands for the
`std::out_of_range` thrown when `pos > size()`. -/
def substr (buffer : List Nat) (pos count : Nat) : Option (List Nat) :=
  if pos ≤ buffer.length then some ((buffer.drop pos).take count) else none

/-- Source lines 65-76. The guard `offset <= buffer.size()` protects the one-argument
`substr`, which therefore cannot throw. -/
def jumpNextWord (buffer : List Nat) : Nat :=
  let offset := findFirstNonCharacter buffer
  let buffer := if offset ≤ buffer.length then buffer.drop offset else buffer
  offset + findFirstCharacter buffer

/-! ## Normaliser -/

/-- The local state of `sanitizeBuffer`: the buffer being rewritten in place, the
`read` and `write` cursors as offsets from `buffer`, and the counter `words`. -/
structure SanitizeState where
  buffer : List Nat
  read : Nat
  write : Nat
  words : Nat
  deriving DecidableEq, Repr

/-- One iteration of the `while` loop of `sanitizeBuffer` (source lines 87-102). -/
def sanitizeStep (length : Nat) (s : SanitizeState) : SanitizeState :=
  let c := s.buffer.getD s.read 0
  let read := s.read + 1
  let sv := (s.buffer.drop read).take (length - read)
  let readOffset := findFirstCharacter sv
  let s1 : SanitizeState :=
    if !shouldSkipCharacter c then
      { s with buffer := s.buffer.set s.write (tolower c), write := s.write + 1 }
    else s
  let read := read + readOffset
  if readOffset > 0 || shouldSkipCharacter c then
    { buffer := s1.buffer.set s1.write 32, read := read, write := s1.write + 1,
      words := s1.words + 1 }
  else
    { s1 with read := read }

/-- The `while (read < buffer + length)` loop of `sanitizeBuffer` (source lines 86-103). -/
def sanitizeLoop (length : Nat) : Nat → SanitizeState → Option SanitizeState
  | fuel, s =>
    if s.read < length then
      match fuel with
      | 0 => none
      | fuel + 1 => sanitizeLoop length fuel (sanitizeStep length s)
    else some s

/-- What `sanitizeBuffer` leaves behind: the buffer, the returned new length and the
value stored in `words`. -/
structure SanitizeResult where
  buffer : List Nat
  length : Nat
  words : Nat
  deriving DecidableEq, Repr

/-- Source lines 81-107. -/
def sanitizeBuffer (buffer : List Nat) : Option SanitizeResult :=
  (sanitizeLoop buffer.length buffer.length
      { buffer := buffer, read := 0, write := 0, words := 0 }).map
    fun s => { buffer := s.buffer, length := s.write, words := s.words + 1 }

/-- The text `std::string_view{buffer, length}` that `calculateTriplets` builds from
the outcome of `sanitizeBuffer` (source line 150). -/
def SanitizeResult.text (r : SanitizeResult) : List Nat :=
  r.buffer.take r.length

/-! ## Frequency table -/

/-- The table `TripletMap` as the list of its entries. -/
abbrev TripletMap := List (List Nat × Nat)

/-- The statement `map[tripletKey].fetch_add(1)`: a missing key is value-initialised
to zero by `operator[]` and then incremented. -/
def increment (map : TripletMap) (tripletKey : List Nat) : TripletMap :=
  match map with
  | [] => [(tripletKey, 1)]
  | (k, c) :: rest =>
    if k = tripletKey then (k, c + 1) :: rest else (k, c) :: increment rest tripletKey

/-- The count stored for a key, zero when the key is absent. -/
def countOf (map : TripletMap) (tripletKey : List Nat) : Nat :=
  match map with
  | [] => 0
  | (k, c) :: rest => if k = tripletKey then c else countOf rest tripletKey

/-! ## Counter -/

/-- The `while (offset < buffer.size())` loop of `calculateTripletsForOneThread`
(source lines 118-133). -/
def calculateTripletsLoop (buffer : List Nat) : Nat → Nat → TripletMap → Option TripletMap
  | fuel, offset, map =>
    if offset < buffer.length then
      match fuel with
      | 0 => none
      | fuel + 1 =>
        (substr buffer offset (buffer.length - offset)).bind fun b1 =>
        let secondWordOffset := offset + jumpNextWord b1
        (substr buffer secondWordOffset (buffer.length - secondWordOffset)).bind fun b2 =>
        let thirdWordOffset := secondWordOffset + jumpNextWord b2
        (substr buffer thirdWordOffset (buffer.length - thirdWordOffset)).bind fun b3 =>
        let tripletEndOffset := thirdWordOffset + findFirstNonCharacter b3
        (substr buffer offset (tripletEndOffset - offset)).bind fun tripletKey =>
        let map :=
          if offset ≠ secondWordOffset ∧ thirdWordOffset ≠ secondWordOffset
              ∧ tripletEndOffset ≠ thirdWordOffset then
            increment map tripletKey
          else map
        calculateTripletsLoop buffer fuel secondWordOffset map
    else some map

/-- Source lines 112-134. -/
def calculateTripletsForOneThread (buffer : List Nat) (map : TripletMap) :
    Option TripletMap :=
  calculateTripletsLoop buffer buffer.length 0 map

/-! ## Partitioner -/

/-- The variables that the partition loop of `calculateTriplets` carries from one
iteration to the next, with the shared table. -/
structure PartitionState where
  startOffset : Nat
  endOffset : Nat
  map : TripletMap
  deriving DecidableEq, Repr

/-- The chunk bounds computed by one iteration of the partition loop (source lines
155-167): the new `startOffset`, `endOffset` and `chunkOffset`. -/
def chunkBounds (text : List Nat) (chunkSize : Nat) (prevEndOffset : Nat) :
    Option (Nat × Nat × Nat) :=
  let startOffset := prevEndOffset
  let endOffset := prevEndOffset + chunkSize
  if endOffset < text.length then
    (substr text endOffset (text.length - endOffset)).bind fun b0 =>
    let endOffset := endOffset + jumpNextWord b0
    (substr text endOffset (text.length - endOffset)).bind fun b1 =>
    let chunkOffset := endOffset + jumpNextWord b1
    (substr text chunkOffset (text.length - chunkOffset)).bind fun b2 =>
    let chunkOffset := chunkOffset + jumpNextWord b2
    some (startOffset, endOffset, chunkOffset)
  else
    some (startOffset, text.length, text.length)

/-- One iteration of the partition loop (source lines 155-175); the thread it creates
is run to completion on the spot. -/
def partitionStep (text : List Nat) (chunkSize : Nat) (s : PartitionState) :
    Option PartitionState :=
  (chunkBounds text chunkSize s.endOffset).bind fun (startOffset, endOffset, chunkOffset) =>
  let bufferSize := chunkOffset - startOffset
  if bufferSize > 0 then
    (substr text startOffset bufferSize).bind fun threadBuffer =>
    (calculateTripletsForOneThread threadBuffer s.map).bind fun map =>
    some { startOffset := startOffset, endOffset := endOffset, map := map }
  else
    some { startOffset := startOffset, endOffset := endOffset, map := s.map }

/-- The partition loop `for (nThread = 0; nThread < g_numThreads; ++nThread)` (source
lines 154-176), as the number of iterations still to run. -/
def partitionLoop (text : List Nat) (chunkSize : Nat) : Nat → PartitionState →
    Option PartitionState
  | 0, s => some s
  | n + 1, s => (partitionStep text chunkSize s).bind (partitionLoop text chunkSize n)

/-- Source lines 150-182 of `calculateTriplets`: the table filled by `numThreads`
workers over the text `text`. -/
def countChunks (numThreads : Nat) (text : List Nat) : Option TripletMap :=
  (partitionLoop text (text.length / numThreads) numThreads
    { startOffset := 0, endOffset := 0, map := [] }).map fun s => s.map

/-- Source lines 143 and 150-182 of `calculateTriplets`: normalisation followed by the
partitioned count; `numThreads` is the global `g_numThreads`. The construction of the
table (source lines 146-148) fixes its number of buckets, not its entries, and is not
part of this function. -/
def calculateTripletsTable (numThreads : Nat) (buffer : List Nat) : Option TripletMap :=
  (sanitizeBuffer buffer).bind fun r => countChunks numThreads r.text

/-! ## Selector -/

/-- The record `Triplet` of the header: the text of a triplet and its count. -/
structure Triplet where
  words : List Nat
  count : Nat
  deriving DecidableEq, Repr

/-- The type `TripletResult` of the header, the list of its slots by rank. -/
abbrev TripletResult := List Triplet

/-- Modelled from the spec: the header `triplet_challenge.h` is not part of the sources;
a default-constructed `TripletResult` has three slots, each with empty text and a
count below every count of the table ("initialized to empty"), which for unsigned
counts is zero. -/
def emptyResult : TripletResult :=
  [⟨[], 0⟩, ⟨[], 0⟩, ⟨[], 0⟩]

/-- The inner loop `for (auto j = i; j < result.size(); ++j)` (source lines 194-198) on
the slots from rank `j` on: the carried `triplet` is exchanged with each slot until the
value taken out has the text `tripletKey`. -/
def shiftSlots (tripletKey : List Nat) (triplet : Triplet) : TripletResult → TripletResult
  | [] => []
  | slot :: rest =>
    triplet :: (if slot.words = tripletKey then rest else shiftSlots tripletKey slot rest)

/-- The loop `for (i = 0; i < result.size(); ++i)` (source lines 189-205) on the slots
from rank `i` on, for one entry of the table. -/
def insertEntry (tripletKey : List Nat) (count : Nat) : TripletResult → TripletResult
  | [] => []
  | slot :: rest =>
    if count > slot.count then shiftSlots tripletKey ⟨tripletKey, count⟩ (slot :: rest)
    else slot :: insertEntry tripletKey count rest

/-- The selection loop (source lines 185-206) over the entries of the table in the
order in which the iteration visits them, starting from `result`. -/
def selectFrom (result : TripletResult) (entries : TripletMap) : TripletResult :=
  entries.foldl (fun r e => insertEntry e.1 e.2 r) result

/-- The selection loop of `calculateTriplets` from the default-constructed result. -/
def selectTop (entries : TripletMap) : TripletResult :=
  selectFrom emptyResult entries

/-! ## Normaliser: definitions used in the statements -/

/-- The text that `sanitizeBuffer` leaves in the buffer, as a function of the input:
word characters are folded to lowercase and only the last separator of a run yields a
space. -/
def normalize : List Nat → List Nat
  | [] => []
  | c :: rest =>
    if shouldSkipCharacter c then
      if 0 < findFirstCharacter rest then normalize rest else 32 :: normalize rest
    else tolower c :: normalize rest

/-- What one iteration of the loop of `sanitizeBuffer` writes. -/
def emitted (c k : Nat) : List Nat :=
  (if shouldSkipCharacter c then [] else [tolower c])
    ++ (if 0 < k ∨ shouldSkipCharacter c = true then [32] else [])

/-- The maximal runs of word characters of a buffer, in order: the pieces between
separators, the empty ones left out. -/
def wordRuns (buffer : List Nat) : List (List Nat) :=
  (buffer.splitOnP shouldSkipCharacter).filter fun w => !w.isEmpty

/-- A byte of a canonical buffer: a space, or a word character that lowercase folding
leaves unchanged. -/
def FoldedOrSpace (x : Nat) : Prop :=
  x = 32 ∨ (shouldSkipCharacter x = false ∧ tolower x = x)

/-- No two adjacent bytes of the buffer are both spaces. -/
def NoDoubleSpace (buffer : List Nat) : Prop :=
  buffer.Chain' fun x y => ¬(x = 32 ∧ y = 32)

/-- The canonical buffer made of the given words: the words separated by single
spaces, with no leading and no trailing space. -/
def joinWords : List (List Nat) → List Nat
  | [] => []
  | [w] => w
  | w :: v :: ws => w ++ 32 :: joinWords (v :: ws)

/-- A word: a non-empty run of word characters. -/
def IsWord (w : List Nat) : Prop :=
  w ≠ [] ∧ ∀ x ∈ w, shouldSkipCharacter x = false

/-- A word of a canonical buffer: a word whose characters are already folded to
lowercase. -/
def IsCanonicalWord (w : List Nat) : Prop :=
  IsWord w ∧ ∀ x ∈ w, tolower x = x

/-! ## Selector: definitions used in the statements -/

/-- A table entry as a slot of the result. -/
def toTriplet (e : List Nat × Nat) : Triplet := ⟨e.1, e.2⟩

/-- The slots stably sorted by count, highest count first: insertion sort in which a
slot goes in front of the first slot, among those that follow it, whose count is not
larger than its own, so that slots of equal count keep their order. -/
def stableSortDesc (ts : List Triplet) : List Triplet :=
  List.insertionSort (fun a b : Triplet => b.count ≤ a.count) ts

/-- Insertion of a slot value in front of the first slot with a strictly smaller count,
on a list of slots without a bound on its length. -/
def placeEntry (t : Triplet) : List Triplet → List Triplet
  | [] => [t]
  | s :: rest => if t.count > s.count then t :: s :: rest else s :: placeEntry t rest

/-! ## Counter and partitioner: definitions used in the statements -/

/-- A segment of a text: a run of word characters followed by a run of separators. -/
abbrev Segment := List Nat × List Nat

/-- The bytes of a list of segments, one after the other. -/
def joinSegments : List Segment → List Nat
  | [] => []
  | g :: rest => g.1 ++ (g.2 ++ joinSegments rest)

/-- A well-formed segment: word characters, then separators, not both empty. -/
def SegmentOK (g : Segment) : Prop :=
  (∀ x ∈ g.1, shouldSkipCharacter x = false) ∧ (∀ x ∈ g.2, shouldSkipCharacter x = true)
    ∧ 0 < g.1.length + g.2.length

/-- A segmentation of a text at the starts of its words: every segment but the last
ends with a separator and every segment but the first starts with a word character. -/
def SegmentChain : List Segment → Prop
  | [] => True
  | [g] => SegmentOK g
  | g :: h :: rest => SegmentOK g ∧ g.2 ≠ [] ∧ h.1 ≠ [] ∧ SegmentChain (h :: rest)

/-- The segmentation of a text. -/
def segments : List Nat → List Segment
  | [] => []
  | c :: rest =>
    match segments rest with
    | [] => if shouldSkipCharacter c then [([], [c])] else [([c], [])]
    | (w, s) :: more =>
      if shouldSkipCharacter c then
        if w = [] then ([], c :: s) :: more else ([], [c]) :: (w, s) :: more
      else (c :: w, s) :: more

/-- The triplet keys counted over a segmented text: one for every three consecutive
segments, made of the first two segments and the word of the third. -/
def keysOf : List Segment → List (List Nat)
  | a :: b :: c :: rest => (a.1 ++ (a.2 ++ (b.1 ++ (b.2 ++ c.1)))) :: keysOf (b :: c :: rest)
  | _ => []

/-- The key counted by one iteration of the loop of `calculateTripletsForOneThread`
when the text from `offset` on is `s`, if the iteration counts one. -/
def tripletAt (s : List Nat) : Option (List Nat) :=
  let j1 := jumpNextWord s
  let j2 := jumpNextWord (s.drop j1)
  let e := findFirstNonCharacter (s.drop (j1 + j2))
  if j1 ≠ 0 ∧ j2 ≠ 0 ∧ e ≠ 0 then some (s.take (j1 + j2 + e)) else none

/-- The table after one iteration of the counting loop that found the key `key`, or
none. -/
def countKey (map : TripletMap) (key : Option (List Nat)) : TripletMap :=
  match key with
  | some k => increment map k
  | none => map

/-- The texts of the triplets of a list of words: for every three consecutive words,
the three words joined by single spaces. -/
def tripletTexts : List (List Nat) → List (List Nat)
  | a :: b :: c :: rest => (a ++ 32 :: (b ++ 32 :: c)) :: tripletTexts (b :: c :: rest)
  | _ => []

/-- The segmentation of the canonical buffer made of the given words. -/
def wordSegments : List (List Nat) → List Segment
  | [] => []
  | [w] => [(w, [])]
  | w :: v :: ws => (w, [32]) :: wordSegments (v :: ws)

/-- The invariant of the table: distinct keys, and counts at least one. -/
def TableOK (map : TripletMap) : Prop :=
  (map.map Prod.fst).Nodup ∧ ∀ e ∈ map, 1 ≤ e.2

/-- The length of the first segment of a list of segments, zero for the empty list. -/
def headLength : List Segment → Nat
  | [] => 0
  | g :: _ => g.1.length + g.2.length

/-! ## The whole of `calculateTriplets`, and definitions for the later statements -/

/-- The value `numberOfWords - 2` of source line 146, in the unsigned 64-bit arithmetic
of `std::size_t`. -/
def maxNumberOfBuckets (numberOfWords : Nat) : Nat :=
  (numberOfWords + 2 ^ 64 - 2) % 2 ^ 64

/-- The constructor call `TripletMap map(maxNumberOfBuckets)` of source line 147. The
standard library has to allocate at least `bucketCount` buckets of one pointer (8 bytes)
each; when `bucketCount * 8` does not fit the 64-bit address space no allocation can
succeed and the constructor throws (`none`). Failures of smaller allocations depend on
the memory of the machine and are not modelled. -/
def newTripletMap (bucketCount : Nat) : Option TripletMap :=
  if bucketCount * 8 < 2 ^ 64 then some [] else none

/-- What a call of `calculateTriplets` produces: the returned result, and the word count
and the table that it reports on `stderr`. -/
structure TripletOutcome where
  result : TripletResult
  numberOfWords : Nat
  map : TripletMap
  deriving DecidableEq, Repr

/-- Source lines 136-215. `numThreads` is the global `g_numThreads`; the selection loop
visits the entries in the order of the list. -/
def calculateTriplets (numThreads : Nat) (buffer : List Nat) : Option TripletOutcome :=
  (sanitizeBuffer buffer).bind fun r =>
  (newTripletMap (maxNumberOfBuckets r.words)).bind fun map =>
  (partitionLoop r.text (r.text.length / numThreads) numThreads
    { startOffset := 0, endOffset := 0, map := map }).bind fun s =>
  some { result := selectTop s.map, numberOfWords := r.words, map := s.map }

/-- The bounds `(startOffset, endOffset, chunkOffset)` computed by the iterations of the
partition loop (source lines 154-167), `n` iterations from the value `prevEndOffset` of
`endOffset`. -/
def chunkTrace (text : List Nat) (chunkSize : Nat) : Nat → Nat → Option (List (Nat × Nat × Nat))
  | 0, _ => some []
  | n + 1, prevEndOffset =>
    (chunkBounds text chunkSize prevEndOffset).bind fun b =>
    (chunkTrace text chunkSize n b.2.1).map fun rest => b :: rest

/-- The sum of the counts of a table. -/
def totalCount (map : TripletMap) : Nat :=
  (map.map Prod.snd).sum

/-- The bytes of a text given as a string of ASCII characters. -/
def bytes (s : String) : List Nat :=
  s.toList.map Char.toNat

/-- The table of the scenario `"The cat sat. The cat ran. The cat sat."`. -/
def scenarioTable : TripletMap :=
  [(bytes "the cat sat", 2), (bytes "cat sat the", 1), (bytes "sat the cat", 1),
   (bytes "the cat ran", 1), (bytes "cat ran the", 1), (bytes "ran the cat", 1)]

/-! # Theorems -/

/-! ## Tokeniser and normaliser lemmas -/

theorem findFirstCharacter_nil : findFirstCharacter [] = 0 := rfl

theorem findFirstCharacter_cons (c : Nat) (rest : List Nat) :
    findFirstCharacter (c :: rest) =
      if shouldSkipCharacter c then findFirstCharacter rest + 1 else 0 := by
  simp [findFirstCharacter, findGeneric, findGenericMethod]

theorem findFirstNonCharacter_nil : findFirstNonCharacter [] = 0 := rfl

theorem findFirstNonCharacter_cons (c : Nat) (rest : List Nat) :
    findFirstNonCharacter (c :: rest) =
      if shouldSkipCharacter c then 0 else findFirstNonCharacter rest + 1 := by
  simp [findFirstNonCharacter, findGeneric, findGenericMethod]
  split <;> simp_all

theorem findFirstCharacter_le (b : List Nat) : findFirstCharacter b ≤ b.length := by
  induction b with
  | nil => simp [findFirstCharacter_nil]
  | cons c rest ih =>
    rw [findFirstCharacter_cons]
    split
    · simp
      omega
    · simp

theorem findFirstNonCharacter_le (b : List Nat) : findFirstNonCharacter b ≤ b.length := by
  induction b with
  | nil => simp [findFirstNonCharacter_nil]
  | cons c rest ih =>
    rw [findFirstNonCharacter_cons]
    split
    · simp
    · simp
      omega

theorem normalize_skip (rest : List Nat) :
    normalize rest =
      (if 0 < findFirstCharacter rest then [32] else [])
        ++ normalize (rest.drop (findFirstCharacter rest)) := by
  induction rest with
  | nil => simp [normalize, findFirstCharacter_nil]
  | cons d r ih =>
    rw [findFirstCharacter_cons]
    by_cases hd : shouldSkipCharacter d = true
    · simp only [hd, if_true, Nat.succ_pos, List.drop_succ_cons]
      rw [normalize]
      simp only [hd, if_true]
      by_cases hk : 0 < findFirstCharacter r
      · simp only [hk, if_true] at ih ⊢
        exact ih
      · have hz : findFirstCharacter r = 0 := by omega
        simp [hz]
    · simp [hd]

theorem normalize_cons (c : Nat) (rest : List Nat) :
    normalize (c :: rest) =
      emitted c (findFirstCharacter rest)
        ++ normalize (rest.drop (findFirstCharacter rest)) := by
  rw [normalize]
  by_cases hc : shouldSkipCharacter c = true
  · simp only [hc, if_true, emitted, or_true, List.nil_append]
    by_cases hk : 0 < findFirstCharacter rest
    · simp only [hk, if_true]
      have := normalize_skip rest
      simp only [hk, if_true] at this
      simpa using this
    · have hz : findFirstCharacter rest = 0 := by omega
      simp [hz]
  · simp only [hc, emitted, or_false]
    have := normalize_skip rest
    simp at this ⊢
    exact this

theorem take_set_of_le {α : Type} (a : α) {n m : Nat} (l : List α) (h : m ≤ n) :
    (l.set n a).take m = l.take m := by
  apply List.ext_getElem?
  intro i
  rw [List.getElem?_take, List.getElem?_take]
  split
  · rw [List.getElem?_set_ne (by omega)]
  · rfl

theorem take_succ_set {α : Type} (a : α) {n : Nat} (l : List α) (h : n < l.length) :
    (l.set n a).take (n + 1) = l.take n ++ [a] := by
  rw [List.take_succ, take_set_of_le a l (Nat.le_refl n), List.getElem?_set_self h]
  rfl

theorem sanitizeStep_spec (s : SanitizeState) (c : Nat) (rest : List Nat)
    (hw : s.write ≤ s.read) (hd : s.buffer.drop s.read = c :: rest) :
    (sanitizeStep s.buffer.length s).buffer.length = s.buffer.length
    ∧ (sanitizeStep s.buffer.length s).read = s.read + 1 + findFirstCharacter rest
    ∧ (sanitizeStep s.buffer.length s).write ≤ (sanitizeStep s.buffer.length s).read
    ∧ (sanitizeStep s.buffer.length s).buffer.drop (sanitizeStep s.buffer.length s).read
        = rest.drop (findFirstCharacter rest)
    ∧ (sanitizeStep s.buffer.length s).buffer.take (sanitizeStep s.buffer.length s).write
        = s.buffer.take s.write ++
          ((if shouldSkipCharacter c then [] else [tolower c])
            ++ (if 0 < findFirstCharacter rest ∨ shouldSkipCharacter c = true then [32] else []))
    ∧ (sanitizeStep s.buffer.length s).words
        = s.words + (if 0 < findFirstCharacter rest ∨ shouldSkipCharacter c = true then 1 else 0) := by
  have hlen : s.buffer.length = s.read + 1 + rest.length := by
    have := congrArg List.length hd
    simp at this
    omega
  have hrlt : s.read < s.buffer.length := by omega
  have hc : s.buffer.getD s.read 0 = c := by
    rw [List.getD_eq_getElem _ _ hrlt]
    rw [List.drop_eq_getElem_cons hrlt] at hd
    exact (List.cons.inj hd).1
  have hrest : s.buffer.drop (s.read + 1) = rest := by
    rw [List.drop_eq_getElem_cons hrlt] at hd
    exact (List.cons.inj hd).2
  have hsv : (s.buffer.drop (s.read + 1)).take (s.buffer.length - (s.read + 1)) = rest := by
    rw [hrest]
    exact List.take_of_length_le (by omega)
  have hk := findFirstCharacter_le rest
  have hdropk : s.buffer.drop (s.read + 1 + findFirstCharacter rest)
      = rest.drop (findFirstCharacter rest) := by
    rw [← hrest, List.drop_drop]
  unfold sanitizeStep
  simp only [hc, hsv]
  by_cases hskip : shouldSkipCharacter c = true
  · simp only [hskip, Bool.not_true, Bool.false_eq_true, if_false, Bool.or_true, if_true,
      or_true, List.nil_append]
    refine ⟨by simp, trivial, by omega, ?_, ?_, trivial⟩
    · rw [List.drop_set_of_lt 32 s.buffer (show s.write < s.read + 1 + findFirstCharacter rest by omega)]
      exact hdropk
    · exact take_succ_set _ _ (by omega)
  · have hskip' : shouldSkipCharacter c = false := by simpa using hskip
    simp only [hskip', Bool.not_false, if_true, Bool.or_false, or_false, decide_eq_true_eq]
    by_cases hpos : 0 < findFirstCharacter rest
    · simp only [hpos, if_true, gt_iff_lt]
      refine ⟨by simp, trivial, by omega, ?_, ?_, by simp⟩
      · rw [List.drop_set_of_lt 32 _ (show s.write + 1 < s.read + 1 + findFirstCharacter rest by omega),
          List.drop_set_of_lt _ s.buffer (show s.write < s.read + 1 + findFirstCharacter rest by omega)]
        exact hdropk
      · rw [take_succ_set 32 (s.buffer.set s.write (tolower c)) (by simp; omega),
          take_succ_set (tolower c) s.buffer (by omega)]
        simp
    · simp only [hpos, if_false, gt_iff_lt]
      refine ⟨by simp, trivial, by show s.write + 1 ≤ _; omega, ?_, ?_, by simp⟩
      · show List.drop (s.read + 1 + findFirstCharacter rest) (s.buffer.set s.write (tolower c)) = _
        rw [List.drop_set_of_lt _ s.buffer (show s.write < s.read + 1 + findFirstCharacter rest by omega)]
        exact hdropk
      · show List.take (s.write + 1) (s.buffer.set s.write (tolower c)) = _
        rw [take_succ_set (tolower c) s.buffer (by omega)]
        simp

theorem tolower_ne_space (c : Nat) (h : shouldSkipCharacter c = false) : tolower c ≠ 32 := by
  unfold shouldSkipCharacter isalnum at h
  unfold tolower
  simp at h
  split <;> omega

theorem count_emitted (c k : Nat) :
    (emitted c k).count 32 = if 0 < k ∨ shouldSkipCharacter c = true then 1 else 0 := by
  unfold emitted
  by_cases hc : shouldSkipCharacter c = true
  · simp [hc]
  · have hc' : shouldSkipCharacter c = false := by simpa using hc
    have := tolower_ne_space c hc'
    by_cases hk : 0 < k
    · simp [hc', hk, List.count_cons, this]
    · simp [hc', hk, List.count_cons, this]

theorem sanitizeLoop_spec (n : Nat) : ∀ (fuel : Nat) (s : SanitizeState),
    s.buffer.length = n → s.write ≤ s.read → s.read ≤ n → n - s.read ≤ fuel →
    ∃ r, sanitizeLoop n fuel s = some r ∧ r.buffer.length = n ∧ r.write ≤ n
      ∧ r.buffer.take r.write = s.buffer.take s.write ++ normalize (s.buffer.drop s.read)
      ∧ r.words = s.words + (normalize (s.buffer.drop s.read)).count 32 := by
  intro fuel
  induction fuel with
  | zero =>
    intro s hn hw hr hf
    have hrn : s.read = n := by omega
    refine ⟨s, ?_, hn, by omega, ?_, ?_⟩
    · unfold sanitizeLoop
      simp [hrn]
    · rw [List.drop_of_length_le (by omega)]
      simp [normalize]
    · rw [List.drop_of_length_le (by omega)]
      simp [normalize]
  | succ fuel ih =>
    intro s hn hw hr hf
    by_cases hlt : s.read < n
    · obtain ⟨c, rest, hd⟩ : ∃ c rest, s.buffer.drop s.read = c :: rest := by
        cases h : s.buffer.drop s.read with
        | nil =>
          have := congrArg List.length h
          simp at this
          omega
        | cons c rest => exact ⟨c, rest, rfl⟩
      have hstep := sanitizeStep_spec s c rest hw hd
      rw [hn] at hstep
      obtain ⟨h1, h2, h3, h4, h5, h6⟩ := hstep
      have hk := findFirstCharacter_le rest
      have hlen : n = s.read + 1 + rest.length := by
        have := congrArg List.length hd
        simp at this
        omega
      obtain ⟨r, hr1, hr2, hr3, hr4, hr5⟩ :=
        ih (sanitizeStep n s) h1 h3 (by omega) (by omega)
      refine ⟨r, ?_, hr2, hr3, ?_, ?_⟩
      · rw [sanitizeLoop]
        simp only [hlt, if_true]
        exact hr1
      · rw [hr4, h5, h4, hd, normalize_cons c rest, emitted]
        simp
      · rw [hr5, h6, h4, hd, normalize_cons c rest, List.count_append, count_emitted]
        omega
    · have hrn : s.read = n := by omega
      refine ⟨s, ?_, hn, by omega, ?_, ?_⟩
      · unfold sanitizeLoop
        simp [hrn]
      · rw [List.drop_of_length_le (by omega)]
        simp [normalize]
      · rw [List.drop_of_length_le (by omega)]
        simp [normalize]

theorem sanitizeBuffer_spec (buffer : List Nat) :
    ∃ r, sanitizeBuffer buffer = some r ∧ r.buffer.length = buffer.length
      ∧ r.length ≤ buffer.length
      ∧ r.text = normalize buffer
      ∧ r.words = (normalize buffer).count 32 + 1 := by
  obtain ⟨r, h1, h2, h3, h4, h5⟩ :=
    sanitizeLoop_spec buffer.length buffer.length
      { buffer := buffer, read := 0, write := 0, words := 0 } rfl (Nat.le_refl _)
      (Nat.zero_le _) (by simp)
  refine ⟨{ buffer := r.buffer, length := r.write, words := r.words + 1 }, ?_, h2, h3, ?_, ?_⟩
  · simp [sanitizeBuffer, h1]
  · simpa [SanitizeResult.text] using h4
  · simpa using h5

theorem shouldSkipCharacter_space : shouldSkipCharacter 32 = true := by decide

theorem shouldSkipCharacter_tolower (c : Nat) :
    shouldSkipCharacter (tolower c) = shouldSkipCharacter c := by
  unfold tolower
  split
  · rename_i h
    have h1 : shouldSkipCharacter c = false := by
      simp [shouldSkipCharacter, isalnum]; omega
    have h2 : shouldSkipCharacter (c + 32) = false := by
      simp [shouldSkipCharacter, isalnum]; omega
    rw [h1, h2]
  · rfl

theorem tolower_tolower (c : Nat) : tolower (tolower c) = tolower c := by
  unfold tolower
  by_cases h : 65 ≤ c ∧ c ≤ 90
  · rw [if_pos h, if_neg (by omega)]
  · rw [if_neg h, if_neg h]

theorem findFirstCharacter_pos_iff (rest : List Nat) :
    0 < findFirstCharacter rest ↔ ∃ d r, rest = d :: r ∧ shouldSkipCharacter d = true := by
  cases rest with
  | nil => simp [findFirstCharacter_nil]
  | cons d r =>
    rw [findFirstCharacter_cons]
    by_cases hd : shouldSkipCharacter d = true <;> simp [hd]

theorem head?_normalize (b : List Nat) :
    (normalize b).head? = b.head?.map fun c => if shouldSkipCharacter c then 32 else tolower c := by
  induction b with
  | nil => simp [normalize]
  | cons c rest ih =>
    rw [normalize]
    by_cases hc : shouldSkipCharacter c = true
    · simp only [hc, if_true, List.head?_cons, Option.map_some']
      by_cases hk : 0 < findFirstCharacter rest
      · simp only [hk, if_true]
        obtain ⟨d, r, hr, hd⟩ := (findFirstCharacter_pos_iff rest).1 hk
        rw [ih, hr]
        simp [hd]
      · simp [hk]
    · simp [hc]

theorem normalize_ne_nil (b : List Nat) (h : b ≠ []) : normalize b ≠ [] := by
  intro hn
  have := head?_normalize b
  rw [hn] at this
  cases b with
  | nil => exact h rfl
  | cons c rest => simp at this

theorem getLast?_normalize (b : List Nat) :
    (normalize b).getLast? =
      b.getLast?.map fun c => if shouldSkipCharacter c then 32 else tolower c := by
  induction b with
  | nil => simp [normalize]
  | cons c rest ih =>
    cases rest with
    | nil =>
      simp only [normalize, findFirstCharacter_nil, Nat.lt_irrefl, if_false]
      by_cases hc : shouldSkipCharacter c = true <;> simp [hc]
    | cons d r =>
      have hne := normalize_ne_nil (d :: r) (by simp)
      have hl : ∀ x : Nat, (x :: normalize (d :: r)).getLast? = (normalize (d :: r)).getLast? := by
        intro x
        cases hnr : normalize (d :: r) with
        | nil => exact absurd hnr hne
        | cons y ys => simp [List.getLast?_cons_cons]
      rw [normalize]
      have hlast : (c :: d :: r).getLast? = (d :: r).getLast? := by
        simp [List.getLast?_cons_cons]
      rw [hlast, ← ih]
      by_cases hc : shouldSkipCharacter c = true
      · simp only [hc, if_true]
        by_cases hk : 0 < findFirstCharacter (d :: r)
        · simp only [hk, if_true]
        · simp only [hk, if_false]
          exact hl 32
      · simp only [hc, if_false]
        exact hl _

theorem normalize_folded (b : List Nat) : ∀ x ∈ normalize b, FoldedOrSpace x := by
  induction b with
  | nil => simp [normalize]
  | cons c rest ih =>
    rw [normalize]
    by_cases hc : shouldSkipCharacter c = true
    · simp only [hc, if_true]
      by_cases hk : 0 < findFirstCharacter rest
      · simpa only [hk, if_true] using ih
      · simp only [hk, if_false]
        intro x hx
        rcases List.mem_cons.1 hx with rfl | hx
        · exact Or.inl rfl
        · exact ih x hx
    · simp only [hc, if_false]
      intro x hx
      rcases List.mem_cons.1 hx with rfl | hx
      · right
        refine ⟨?_, tolower_tolower c⟩
        rw [shouldSkipCharacter_tolower]
        simpa using hc
      · exact ih x hx

theorem normalize_noDoubleSpace (b : List Nat) : NoDoubleSpace (normalize b) := by
  unfold NoDoubleSpace
  induction b with
  | nil => simp [normalize]
  | cons c rest ih =>
    rw [normalize]
    by_cases hc : shouldSkipCharacter c = true
    · simp only [hc, if_true]
      by_cases hk : 0 < findFirstCharacter rest
      · simpa only [hk, if_true] using ih
      · simp only [hk, if_false]
        rw [List.chain'_cons']
        refine ⟨?_, ih⟩
        intro y hy
        rw [head?_normalize] at hy
        cases rest with
        | nil => simp at hy
        | cons d r =>
          rw [findFirstCharacter_cons] at hk
          have hd : shouldSkipCharacter d = false := by
            by_cases hd : shouldSkipCharacter d = true
            · simp [hd] at hk
            · simpa using hd
          simp [hd] at hy
          have := tolower_ne_space d hd
          intro h
          exact this (hy ▸ h.2)
    · have hc' : shouldSkipCharacter c = false := by simpa using hc
      simp only [hc', Bool.false_eq_true, if_false]
      rw [List.chain'_cons']
      refine ⟨?_, ih⟩
      intro y _ h
      exact tolower_ne_space c (by simpa using hc) h.1

theorem normalize_of_canonical (b : List Nat) (h1 : ∀ x ∈ b, FoldedOrSpace x)
    (h2 : NoDoubleSpace b) : normalize b = b := by
  unfold NoDoubleSpace at h2
  induction b with
  | nil => simp [normalize]
  | cons c rest ih =>
    have ih' := ih (fun x hx => h1 x (List.mem_cons_of_mem _ hx)) (List.Chain'.tail h2)
    rw [normalize, ih']
    rcases h1 c (List.mem_cons_self _ _) with hc | ⟨hc, hl⟩
    · subst hc
      simp only [shouldSkipCharacter_space, if_true]
      have hk : ¬ 0 < findFirstCharacter rest := by
        intro hk
        obtain ⟨d, r, hr, hd⟩ := (findFirstCharacter_pos_iff rest).1 hk
        subst hr
        rw [List.chain'_cons] at h2
        rcases h1 d (by simp) with hd32 | ⟨hd', _⟩
        · exact h2.1 ⟨rfl, hd32⟩
        · rw [hd] at hd'
          exact absurd hd' (by simp)
      simp [hk]
    · simp [hc, hl]

theorem splitOnP_normalize (b : List Nat) :
    ∃ h t h' t', b.splitOnP shouldSkipCharacter = h :: t
      ∧ (normalize b).splitOnP shouldSkipCharacter = h' :: t'
      ∧ h' = h.map tolower
      ∧ t'.filter (fun w => !w.isEmpty) = (t.filter fun w => !w.isEmpty).map (List.map tolower) := by
  induction b with
  | nil => exact ⟨[], [], [], [], by simp, by simp [normalize], by simp, by simp⟩
  | cons c rest ih =>
    obtain ⟨h, t, h', t', e1, e2, e3, e4⟩ := ih
    rw [normalize]
    by_cases hc : shouldSkipCharacter c = true
    · simp only [hc, if_true, List.splitOnP_cons]
      by_cases hk : 0 < findFirstCharacter rest
      · simp only [hk, if_true]
        obtain ⟨d, r, hr, hd⟩ := (findFirstCharacter_pos_iff rest).1 hk
        have hh : h = [] := by
          rw [hr, List.splitOnP_cons] at e1
          simp only [hd, if_true] at e1
          exact ((List.cons.inj e1).1).symm
        refine ⟨[], rest.splitOnP shouldSkipCharacter, h', t', rfl, e2, ?_, ?_⟩
        · rw [e3, hh]
        · rw [e1, hh]
          simpa using e4
      · simp only [hk, if_false, List.splitOnP_cons, shouldSkipCharacter_space, if_true]
        refine ⟨[], rest.splitOnP shouldSkipCharacter, [], (normalize rest).splitOnP shouldSkipCharacter,
          rfl, rfl, rfl, ?_⟩
        rw [e1, e2, e3]
        simp only [List.filter_cons, List.isEmpty_eq_true, List.map_eq_nil_iff]
        by_cases hh : h = []
        · simp [hh, e4]
        · simp [hh, e4]
    · have hc' : shouldSkipCharacter c = false := by simpa using hc
      simp only [hc', Bool.false_eq_true, if_false, List.splitOnP_cons,
        shouldSkipCharacter_tolower]
      rw [e1, e2]
      refine ⟨c :: h, t, tolower c :: h', t', rfl, rfl, by simp [e3], e4⟩

theorem wordRuns_normalize (b : List Nat) :
    wordRuns (normalize b) = (wordRuns b).map (List.map tolower) := by
  obtain ⟨h, t, h', t', e1, e2, e3, e4⟩ := splitOnP_normalize b
  unfold wordRuns
  rw [e1, e2, e3]
  simp only [List.filter_cons, List.isEmpty_eq_true, List.map_eq_nil_iff]
  by_cases hh : h = []
  · simp [hh, e4]
  · simp [hh, e4]

theorem normalize_word_append (w rest : List Nat) (hw : ∀ x ∈ w, shouldSkipCharacter x = false) :
    normalize (w ++ rest) = w.map tolower ++ normalize rest := by
  induction w with
  | nil => simp
  | cons c w ih =>
    have hc := hw c (List.mem_cons_self _ _)
    rw [List.cons_append, normalize]
    simp only [hc, Bool.false_eq_true, if_false, List.map_cons, List.cons_append]
    rw [ih (fun x hx => hw x (List.mem_cons_of_mem _ hx))]

theorem map_tolower_canonical (w : List Nat) (hw : ∀ x ∈ w, tolower x = x) :
    w.map tolower = w := by
  induction w with
  | nil => rfl
  | cons c w ih =>
    simp only [List.map_cons]
    rw [hw c (List.mem_cons_self _ _), ih (fun x hx => hw x (List.mem_cons_of_mem _ hx))]

theorem joinWords_head (v : List Nat) (ws : List (List Nat)) (hv : IsWord v) :
    ∃ d r, joinWords (v :: ws) = d :: r ∧ shouldSkipCharacter d = false := by
  obtain ⟨hne, hall⟩ := hv
  cases v with
  | nil => exact absurd rfl hne
  | cons d r =>
    cases ws with
    | nil => exact ⟨d, r, rfl, hall d (List.mem_cons_self _ _)⟩
    | cons u us => exact ⟨d, _, rfl, hall d (List.mem_cons_self _ _)⟩

theorem findFirstCharacter_joinWords (v : List Nat) (ws : List (List Nat)) (hv : IsWord v) :
    findFirstCharacter (joinWords (v :: ws)) = 0 := by
  obtain ⟨d, r, h, hd⟩ := joinWords_head v ws hv
  rw [h, findFirstCharacter_cons]
  simp [hd]

theorem count_space_word (w : List Nat) (hw : ∀ x ∈ w, shouldSkipCharacter x = false) :
    w.count 32 = 0 := by
  rw [List.count_eq_zero]
  intro h
  have := hw 32 h
  rw [shouldSkipCharacter_space] at this
  exact absurd this (by simp)

theorem normalize_joinWords (words : List (List Nat)) (h : ∀ w ∈ words, IsCanonicalWord w) :
    normalize (joinWords words) = joinWords words
      ∧ (words ≠ [] → (joinWords words).count 32 + 1 = words.length) := by
  induction words with
  | nil => simp [joinWords, normalize]
  | cons w ws ih =>
    have hw := h w (List.mem_cons_self _ _)
    have ih' := ih (fun x hx => h x (List.mem_cons_of_mem _ hx))
    cases ws with
    | nil =>
      refine ⟨?_, fun _ => ?_⟩
      · have := normalize_word_append w [] hw.1.2
        simp only [List.append_nil, normalize] at this
        rw [joinWords, this, map_tolower_canonical w hw.2]
      · simp [joinWords, count_space_word w hw.1.2]
    | cons v vs =>
      have hv := h v (by simp)
      refine ⟨?_, fun _ => ?_⟩
      · rw [joinWords, normalize_word_append _ _ hw.1.2, map_tolower_canonical w hw.2, normalize]
        simp only [shouldSkipCharacter_space, if_true, findFirstCharacter_joinWords v vs hv.1,
          Nat.lt_irrefl, if_false]
        rw [ih'.1]
      · have := ih'.2 (by simp)
        rw [joinWords, List.count_append, count_space_word w hw.1.2, List.count_cons_self]
        simp only [List.length_cons] at this ⊢
        omega

/-- C9. For every buffer, `sanitizeBuffer` returns, and the new length it returns is at
most the original length. -/
theorem sanitizeBuffer_length_le (buffer : List Nat) :
    ∃ r, sanitizeBuffer buffer = some r ∧ r.length ≤ buffer.length := by
  obtain ⟨r, h1, _, h3, _, _⟩ := sanitizeBuffer_spec buffer
  exact ⟨r, h1, h3⟩

/-- C6. For every buffer, the text left by `sanitizeBuffer` consists of spaces and of
word characters folded to lowercase, has no two adjacent spaces, and its maximal runs
of word characters are those of the input, folded to lowercase, in the same order. -/
theorem sanitizeBuffer_words_preserved (buffer : List Nat) :
    ∃ r, sanitizeBuffer buffer = some r
      ∧ (∀ x ∈ r.text, FoldedOrSpace x)
      ∧ NoDoubleSpace r.text
      ∧ wordRuns r.text = (wordRuns buffer).map (List.map tolower) := by
  obtain ⟨r, h1, _, _, h4, _⟩ := sanitizeBuffer_spec buffer
  refine ⟨r, h1, ?_, ?_, ?_⟩
  · rw [h4]; exact normalize_folded buffer
  · rw [h4]; exact normalize_noDoubleSpace buffer
  · rw [h4]; exact wordRuns_normalize buffer

/-- C5 (counterexample). On the input `".ab."` the text left by `sanitizeBuffer` is
`" ab "`: it begins with a space and ends with a space. -/
theorem sanitizeBuffer_outer_space_example :
    sanitizeBuffer [46, 97, 98, 46] = some { buffer := [32, 97, 98, 32], length := 4, words := 3 }
      ∧ (SanitizeResult.text { buffer := [32, 97, 98, 32], length := 4, words := 3 }).head?
          = some 32
      ∧ (SanitizeResult.text { buffer := [32, 97, 98, 32], length := 4, words := 3 }).getLast?
          = some 32 := by
  decide

/-- C5 (amended). For every buffer, the text left by `sanitizeBuffer` begins with a space
exactly when the input begins with a separator, and ends with a space exactly when the
input ends with a separator. -/
theorem sanitizeBuffer_outer_separators (buffer : List Nat) :
    ∃ r, sanitizeBuffer buffer = some r
      ∧ (r.text.head? = some 32 ↔ ∃ c, buffer.head? = some c ∧ shouldSkipCharacter c = true)
      ∧ (r.text.getLast? = some 32
          ↔ ∃ c, buffer.getLast? = some c ∧ shouldSkipCharacter c = true) := by
  obtain ⟨r, h1, _, _, h4, _⟩ := sanitizeBuffer_spec buffer
  have key : ∀ o : Option Nat,
      (o.map (fun c => if shouldSkipCharacter c then 32 else tolower c) = some 32
        ↔ ∃ c, o = some c ∧ shouldSkipCharacter c = true) := by
    intro o
    cases o with
    | none => simp
    | some c =>
      by_cases hc : shouldSkipCharacter c = true
      · simp [hc]
      · have hc' : shouldSkipCharacter c = false := by simpa using hc
        simp [hc', tolower_ne_space c hc']
  refine ⟨r, h1, ?_, ?_⟩
  · rw [h4, head?_normalize]; exact key _
  · rw [h4, getLast?_normalize]; exact key _

/-- C7 (failing input). On the input `"ab."`, which has one maximal run of word
characters, `sanitizeBuffer` stores 2 in `words`. -/
theorem sanitizeBuffer_words_trailing_separator :
    sanitizeBuffer [97, 98, 46] = some { buffer := [97, 98, 32], length := 3, words := 2 }
      ∧ wordRuns [97, 98, 46] = [[97, 98]] := by
  decide

/-- C8. Applying `sanitizeBuffer` to the text it has left returns the same text, the
same length and the same word count; and on a canonical buffer made of one or more
lowercase words separated by single spaces it returns the buffer unchanged, its length,
and the number of its words. -/
theorem sanitizeBuffer_idempotent :
    (∀ buffer r, sanitizeBuffer buffer = some r →
        sanitizeBuffer r.text = some { buffer := r.text, length := r.length, words := r.words })
    ∧ (∀ words : List (List Nat), words ≠ [] → (∀ w ∈ words, IsCanonicalWord w) →
        sanitizeBuffer (joinWords words)
          = some { buffer := joinWords words, length := (joinWords words).length,
                   words := words.length }) := by
  have main : ∀ b : List Nat, normalize b = b →
      sanitizeBuffer b = some { buffer := b, length := b.length, words := b.count 32 + 1 } := by
    intro b hb
    obtain ⟨r, h1, h2, h3, h4, h5⟩ := sanitizeBuffer_spec b
    rw [hb] at h4 h5
    have hlen : r.length = b.length := by
      have := congrArg List.length h4
      simp [SanitizeResult.text] at this
      omega
    have hbuf : r.buffer = b := by
      have : r.buffer.take r.length = r.buffer := List.take_of_length_le (by omega)
      rw [← this]
      exact h4
    rw [h1]
    cases r with
    | mk rb rl rw =>
      simp only at hlen hbuf h5
      rw [hlen, hbuf, h5]
  constructor
  · intro buffer r hr
    obtain ⟨r', h1, h2, h3, h4, h5⟩ := sanitizeBuffer_spec buffer
    rw [hr] at h1
    cases Option.some.inj h1
    have hn : normalize r.text = r.text := by
      rw [h4]
      exact normalize_of_canonical _ (normalize_folded buffer) (normalize_noDoubleSpace buffer)
    rw [main r.text hn]
    have hl : r.text.length = r.length := by
      simp [SanitizeResult.text]
      omega
    rw [hl, h5, h4]
  · intro words hne hw
    obtain ⟨hn, hc⟩ := normalize_joinWords words hw
    rw [main _ hn, hc hne]

/-- Witness for C8: the text `"ab cd"`. -/
theorem sanitizeBuffer_idempotent_witness :
    sanitizeBuffer [97, 98, 44, 32, 67, 68] = some { buffer := [97, 98, 32, 99, 100, 68], length := 5, words := 2 }
    ∧ sanitizeBuffer [97, 98, 32, 99, 100]
        = some { buffer := [97, 98, 32, 99, 100], length := 5, words := 2 }
    ∧ sanitizeBuffer (joinWords [[97, 98], [99, 100]])
        = some { buffer := joinWords [[97, 98], [99, 100]],
                 length := (joinWords [[97, 98], [99, 100]]).length, words := 2 } :=
  ⟨by decide,
   sanitizeBuffer_idempotent.1 [97, 98, 44, 32, 67, 68]
     { buffer := [97, 98, 32, 99, 100, 68], length := 5, words := 2 } (by decide),
   sanitizeBuffer_idempotent.2 [[97, 98], [99, 100]] (by decide)
     (by
       intro w hw
       simp only [List.mem_cons, List.mem_singleton, List.not_mem_nil, or_false] at hw
       rcases hw with rfl | rfl <;> exact ⟨⟨by decide, by decide⟩, by decide⟩)⟩

/-! ## Selector -/

theorem shiftSlots_replicate (k : List Nat) (e : Triplet) :
    ∀ (n : Nat) (t : Triplet), shiftSlots k t (List.replicate n e) = (t :: List.replicate n e).take n := by
  intro n
  induction n with
  | zero => intro t; rfl
  | succ n ih =>
    intro t
    rw [List.replicate_succ, shiftSlots, ih e]
    have h : (e :: List.replicate n e).take n = List.replicate n e := by
      rw [← List.replicate_succ, List.take_replicate]
      simp
    rw [h]
    simp [List.take_succ_cons, h]

theorem shiftSlots_padded (k : List Nat) (e : Triplet) (m : Nat) :
    ∀ (S : List Triplet) (n : Nat) (t : Triplet), n ≤ m → (∀ s ∈ S, s.words ≠ k) →
      shiftSlots k t ((S ++ List.replicate m e).take n)
        = (t :: (S ++ List.replicate m e)).take n := by
  intro S
  induction S with
  | nil =>
    intro n t hn _
    simp only [List.nil_append, List.take_replicate, Nat.min_eq_left hn]
    rw [shiftSlots_replicate]
    cases n with
    | zero => rfl
    | succ n =>
      simp only [List.take_succ_cons, List.take_replicate]
      congr 2
      omega
  | cons s S ih =>
    intro n t hn hS
    cases n with
    | zero => rfl
    | succ n =>
      have hs : s.words ≠ k := hS s (List.mem_cons_self _ _)
      simp only [List.cons_append, List.take_succ_cons]
      rw [shiftSlots]
      simp only [hs, if_false]
      rw [ih n s (by omega) (fun x hx => hS x (List.mem_cons_of_mem _ hx))]

theorem insertEntry_padded (k : List Nat) (c : Nat) (hc : 0 < c) (m : Nat) :
    ∀ (S : List Triplet) (n : Nat), n ≤ m → (∀ s ∈ S, s.words ≠ k) →
      insertEntry k c ((S ++ List.replicate m (⟨[], 0⟩ : Triplet)).take n)
        = (placeEntry ⟨k, c⟩ S ++ List.replicate m (⟨[], 0⟩ : Triplet)).take n := by
  intro S
  induction S with
  | nil =>
    intro n hn _
    cases n with
    | zero => rfl
    | succ n =>
      have := shiftSlots_padded k ⟨[], 0⟩ m [] (n + 1) ⟨k, c⟩ hn (by simp)
      simp only [List.nil_append] at this
      simp only [List.nil_append, placeEntry, List.singleton_append]
      rw [← this]
      cases m with
      | zero => omega
      | succ m =>
        simp only [List.replicate_succ, List.take_succ_cons]
        rw [insertEntry]
        simp [hc]
  | cons s S ih =>
    intro n hn hS
    cases n with
    | zero => rfl
    | succ n =>
      simp only [List.cons_append, List.take_succ_cons]
      rw [insertEntry, placeEntry]
      by_cases h : c > s.count
      · simp only [h, if_true]
        have := shiftSlots_padded k ⟨[], 0⟩ m (s :: S) (n + 1) ⟨k, c⟩ hn hS
        simp only [List.cons_append, List.take_succ_cons] at this
        rw [this]
        simp [List.take_succ_cons]
      · simp only [h, if_false]
        rw [ih n (by omega) (fun x hx => hS x (List.mem_cons_of_mem _ hx))]
        simp [List.take_succ_cons]

theorem mem_placeEntry (t : Triplet) (S : List Triplet) (x : Triplet) :
    x ∈ placeEntry t S ↔ x = t ∨ x ∈ S := by
  induction S with
  | nil => simp [placeEntry]
  | cons s S ih =>
    rw [placeEntry]
    split
    · simp
    · simp only [List.mem_cons, ih]
      tauto

theorem selectFrom_padded (entries : TripletMap) :
    ∀ S : List Triplet, (entries.map Prod.fst).Nodup → (∀ e ∈ entries, 1 ≤ e.2) →
      (∀ s ∈ S, ∀ e ∈ entries, s.words ≠ e.1) →
      selectFrom ((S ++ List.replicate 3 (⟨[], 0⟩ : Triplet)).take 3) entries
        = ((entries.map toTriplet).foldl (fun S t => placeEntry t S) S
            ++ List.replicate 3 (⟨[], 0⟩ : Triplet)).take 3 := by
  induction entries with
  | nil => intro S _ _ _; rfl
  | cons e entries ih =>
    intro S hnd hpos hS
    simp only [List.map_cons, List.nodup_cons] at hnd
    simp only [selectFrom, List.foldl_cons, List.map_cons]
    rw [insertEntry_padded e.1 e.2 (hpos e (List.mem_cons_self _ _)) 3 S 3 (Nat.le_refl _)
      (fun s hs => hS s hs e (List.mem_cons_self _ _))]
    have := ih (placeEntry ⟨e.1, e.2⟩ S) hnd.2
      (fun x hx => hpos x (List.mem_cons_of_mem _ hx))
      (by
        intro s hs x hx
        rcases (mem_placeEntry _ _ _).1 hs with rfl | hs
        · intro h
          exact hnd.1 (List.mem_map.2 ⟨x, hx, h.symm⟩)
        · exact hS s hs x (List.mem_cons_of_mem _ hx))
    simpa [selectFrom, toTriplet] using this

theorem placeEntry_orderedInsert (e a : Triplet) (X : List Triplet) :
    placeEntry e (List.orderedInsert (fun a b : Triplet => b.count ≤ a.count) a X)
      = List.orderedInsert (fun a b : Triplet => b.count ≤ a.count) a (placeEntry e X) := by
  induction X with
  | nil =>
    simp only [List.orderedInsert, placeEntry]
    by_cases h : e.count ≤ a.count
    · have h' : ¬ e.count > a.count := by omega
      simp [h, h', placeEntry]
    · have h' : e.count > a.count := by omega
      simp [h, h', placeEntry]
  | cons x X ih =>
    simp only [List.orderedInsert, placeEntry]
    by_cases h1 : e.count > x.count <;> by_cases h2 : x.count ≤ a.count
    · simp only [h1, h2, if_true, placeEntry, List.orderedInsert]
      by_cases h3 : e.count ≤ a.count
      · have h3' : ¬ e.count > a.count := by omega
        simp [h3, h3', h1, h2, placeEntry]
      · have h3' : e.count > a.count := by omega
        simp [h3, h3', h2, List.orderedInsert]
    · have h3 : ¬ e.count ≤ a.count := by omega
      simp [h1, h2, h3, placeEntry, List.orderedInsert]
    · have h3 : ¬ e.count > a.count := by omega
      simp [h1, h2, h3, placeEntry, List.orderedInsert]
    · simp [h1, h2, placeEntry, List.orderedInsert, ih]

theorem foldl_placeEntry_orderedInsert (ts : List Triplet) :
    ∀ (a : Triplet) (X : List Triplet),
      ts.foldl (fun S t => placeEntry t S)
          (List.orderedInsert (fun a b : Triplet => b.count ≤ a.count) a X)
        = List.orderedInsert (fun a b : Triplet => b.count ≤ a.count) a
            (ts.foldl (fun S t => placeEntry t S) X) := by
  induction ts with
  | nil => intro a X; rfl
  | cons t ts ih =>
    intro a X
    simp only [List.foldl_cons]
    rw [placeEntry_orderedInsert, ih]

theorem foldl_placeEntry_eq_sort (ts : List Triplet) :
    ts.foldl (fun S t => placeEntry t S) [] = stableSortDesc ts := by
  induction ts with
  | nil => rfl
  | cons t ts ih =>
    simp only [List.foldl_cons, stableSortDesc, List.insertionSort]
    have : placeEntry t [] = List.orderedInsert (fun a b : Triplet => b.count ≤ a.count) t [] := rfl
    rw [this, foldl_placeEntry_orderedInsert, ih]
    rfl

theorem selectTop_eq (entries : TripletMap) (hkeys : (entries.map Prod.fst).Nodup)
    (hpos : ∀ e ∈ entries, 1 ≤ e.2) :
    selectTop entries = (stableSortDesc (entries.map toTriplet) ++ emptyResult).take 3 := by
  have := selectFrom_padded entries [] hkeys hpos (by simp)
  rw [foldl_placeEntry_eq_sort] at this
  exact this


theorem countOf_of_mem (entries : TripletMap) (hkeys : (entries.map Prod.fst).Nodup)
    (k : List Nat) (c : Nat) (h : (k, c) ∈ entries) : countOf entries k = c := by
  induction entries with
  | nil => simp at h
  | cons e entries ih =>
    obtain ⟨k', c'⟩ := e
    simp only [List.map_cons, List.nodup_cons] at hkeys
    rw [countOf]
    rcases List.mem_cons.1 h with h | h
    · cases h
      simp
    · have hne : k' ≠ k := by
        intro hk
        exact hkeys.1 (List.mem_map.2 ⟨(k, c), h, hk.symm⟩)
      simp only [hne, if_false]
      exact ih hkeys.2 h

theorem stableSortDesc_perm (ts : List Triplet) : (stableSortDesc ts).Perm ts :=
  List.perm_insertionSort _ ts

theorem stableSortDesc_sorted (ts : List Triplet) :
    (stableSortDesc ts).Pairwise (fun a b : Triplet => b.count ≤ a.count) := by
  haveI : IsTotal Triplet (fun a b : Triplet => b.count ≤ a.count) :=
    ⟨fun a b => Nat.le_total b.count a.count⟩
  haveI : IsTrans Triplet (fun a b : Triplet => b.count ≤ a.count) :=
    ⟨fun a b c hab hbc => Nat.le_trans hbc hab⟩
  exact List.sorted_insertionSort (fun a b : Triplet => b.count ≤ a.count) ts

theorem stableSortDesc_stable (ts : List Triplet) (a b : Triplet) (hab : b.count ≤ a.count)
    (h : List.Sublist [a, b] ts) : List.Sublist [a, b] (stableSortDesc ts) :=
  List.pair_sublist_insertionSort (r := fun a b : Triplet => b.count ≤ a.count) hab h

/-- C3. For a table whose entries `e1..en` have distinct keys and counts at least one,
the selection loop returns the first three slots of the entries stably sorted by count,
highest first, followed by untouched empty slots when `n < 3`; the sorted list is a
permutation of the entries, its counts never increase, and an entry visited before
another one whose count is not larger stays in front of it. -/
theorem selectTop_stable_top3 (entries : TripletMap)
    (hkeys : (entries.map Prod.fst).Nodup) (hpos : ∀ e ∈ entries, 1 ≤ e.2) :
    selectTop entries = (stableSortDesc (entries.map toTriplet) ++ emptyResult).take 3
      ∧ (stableSortDesc (entries.map toTriplet)).Perm (entries.map toTriplet)
      ∧ (stableSortDesc (entries.map toTriplet)).Pairwise
          (fun a b : Triplet => b.count ≤ a.count)
      ∧ ∀ a b : Triplet, List.Sublist [a, b] (entries.map toTriplet) → b.count ≤ a.count →
          List.Sublist [a, b] (stableSortDesc (entries.map toTriplet)) :=
  ⟨selectTop_eq entries hkeys hpos, stableSortDesc_perm _, stableSortDesc_sorted _,
    fun a b h hab => stableSortDesc_stable _ a b hab h⟩

/-- Witness for C3: four entries with a tie at count 2. -/
theorem selectTop_stable_top3_witness :
    selectTop [([97], 1), ([98], 2), ([99], 2), ([100], 3)]
      = [⟨[100], 3⟩, ⟨[98], 2⟩, ⟨[99], 2⟩] :=
  (selectTop_stable_top3 [([97], 1), ([98], 2), ([99], 2), ([100], 3)]
    (by decide) (by decide)).1.trans (by decide)

/-- C4. For a table with distinct keys and counts at least one, the result of the
selection loop has three slots whose counts never increase with the rank; a slot with
a non-zero count holds an entry of the table, so its count is the one the table holds
for its key; two such slots never hold the same key; a slot with count zero is an
untouched empty slot. -/
theorem selectTop_top3_correct (entries : TripletMap)
    (hkeys : (entries.map Prod.fst).Nodup) (hpos : ∀ e ∈ entries, 1 ≤ e.2) :
    (selectTop entries).length = 3
      ∧ (selectTop entries).Pairwise (fun a b : Triplet => b.count ≤ a.count)
      ∧ (∀ t ∈ selectTop entries, t.count ≠ 0 →
          (t.words, t.count) ∈ entries ∧ countOf entries t.words = t.count)
      ∧ (selectTop entries).Pairwise
          (fun a b : Triplet => a.count ≠ 0 → b.count ≠ 0 → a.words ≠ b.words)
      ∧ (∀ t ∈ selectTop entries, t.count = 0 → t = ⟨[], 0⟩) := by
  have heq := selectTop_eq entries hkeys hpos
  have hperm := stableSortDesc_perm (entries.map toTriplet)
  have hsorted := stableSortDesc_sorted (entries.map toTriplet)
  have hmemS : ∀ t ∈ stableSortDesc (entries.map toTriplet), (t.words, t.count) ∈ entries := by
    intro t ht
    have := (hperm.mem_iff).1 ht
    obtain ⟨e, he, rfl⟩ := List.mem_map.1 this
    exact he
  have hmemE : ∀ t ∈ emptyResult, t = (⟨[], 0⟩ : Triplet) := by
    intro t ht
    simp only [emptyResult, List.mem_cons, List.mem_singleton, List.not_mem_nil, or_false,
      or_self] at ht
    exact ht
  have hmem : ∀ t ∈ selectTop entries,
      t ∈ stableSortDesc (entries.map toTriplet) ∨ t = (⟨[], 0⟩ : Triplet) := by
    intro t ht
    rw [heq] at ht
    rcases List.mem_append.1 (List.mem_of_mem_take ht) with h | h
    · exact Or.inl h
    · exact Or.inr (hmemE t h)
  have hfilled : ∀ t ∈ selectTop entries, t.count ≠ 0 → (t.words, t.count) ∈ entries := by
    intro t ht h0
    rcases hmem t ht with h | h
    · exact hmemS t h
    · rw [h] at h0
      exact absurd rfl h0
  refine ⟨?_, ?_, ?_, ?_, ?_⟩
  · rw [heq, List.length_take, List.length_append]
    simp [emptyResult]
  · rw [heq]
    refine List.Pairwise.sublist (List.take_sublist _ _) ?_
    rw [List.pairwise_append]
    refine ⟨hsorted, by simp [emptyResult], ?_⟩
    intro a _ b hb
    rw [hmemE b hb]
    exact Nat.zero_le _
  · intro t ht h0
    exact ⟨hfilled t ht h0, countOf_of_mem entries hkeys _ _ (hfilled t ht h0)⟩
  · rw [heq]
    refine List.Pairwise.sublist (List.take_sublist _ _) ?_
    rw [List.pairwise_append]
    refine ⟨?_, ?_, ?_⟩
    · have hnd : (entries.map toTriplet).Pairwise (fun a b : Triplet => a.words ≠ b.words) := by
        have := hkeys
        rw [List.Nodup, List.pairwise_map] at this
        rw [List.pairwise_map]
        exact this
      have hsymm : ∀ l : List Triplet, l.Pairwise (fun a b : Triplet => a.words ≠ b.words) →
          ∀ l', l.Perm l' → l'.Pairwise (fun a b : Triplet => a.words ≠ b.words) :=
        fun l hl l' hp => hp.pairwise hl (fun hab h => hab h.symm)
      exact (hsymm _ hnd _ hperm.symm).imp (fun h _ _ => h)
    · simp [emptyResult]
    · intro a _ b hb _ hb0
      rw [hmemE b hb] at hb0
      exact absurd rfl hb0
  · intro t ht h0
    rcases hmem t ht with h | h
    · have := hpos _ (hmemS t h)
      simp only at this
      omega
    · exact h

/-- Witness for C4: four entries with a tie at count 2. -/
theorem selectTop_top3_correct_witness :
    (selectTop [([97], 1), ([98], 2), ([99], 2), ([100], 3)]).length = 3 :=
  (selectTop_top3_correct [([97], 1), ([98], 2), ([99], 2), ([100], 3)]
    (by decide) (by decide)).1

/-! ## Counter -/

theorem findFirstNonCharacter_append (w tail : List Nat)
    (hw : ∀ x ∈ w, shouldSkipCharacter x = false) :
    findFirstNonCharacter (w ++ tail) = w.length + findFirstNonCharacter tail := by
  induction w with
  | nil => simp
  | cons c w ih =>
    rw [List.cons_append, findFirstNonCharacter_cons]
    simp only [hw c (List.mem_cons_self _ _), Bool.false_eq_true, if_false, List.length_cons]
    rw [ih (fun x hx => hw x (List.mem_cons_of_mem _ hx))]
    omega

theorem findFirstCharacter_append (s tail : List Nat)
    (hs : ∀ x ∈ s, shouldSkipCharacter x = true) :
    findFirstCharacter (s ++ tail) = s.length + findFirstCharacter tail := by
  induction s with
  | nil => simp
  | cons c s ih =>
    rw [List.cons_append, findFirstCharacter_cons]
    simp only [hs c (List.mem_cons_self _ _), if_true, List.length_cons]
    rw [ih (fun x hx => hs x (List.mem_cons_of_mem _ hx))]
    omega

theorem jumpNextWord_nil : jumpNextWord [] = 0 := rfl

theorem jumpNextWord_le (b : List Nat) : jumpNextWord b ≤ b.length := by
  unfold jumpNextWord
  have h1 := findFirstNonCharacter_le b
  simp only [h1, if_true]
  have h2 := findFirstCharacter_le (b.drop (findFirstNonCharacter b))
  simp only [List.length_drop] at h2
  omega

theorem jumpNextWord_pos (c : Nat) (rest : List Nat) : 0 < jumpNextWord (c :: rest) := by
  unfold jumpNextWord
  have h1 := findFirstNonCharacter_le (c :: rest)
  simp only [h1, if_true]
  rw [findFirstNonCharacter_cons]
  by_cases hc : shouldSkipCharacter c = true
  · simp only [hc, if_true, List.drop_zero, Nat.zero_add]
    rw [findFirstCharacter_cons]
    simp [hc]
  · have hc' : shouldSkipCharacter c = false := by simpa using hc
    simp only [hc', Bool.false_eq_true, if_false]
    omega

theorem SegmentChain.head {g : Segment} {rest : List Segment} (h : SegmentChain (g :: rest)) :
    SegmentOK g := by
  cases rest with
  | nil => exact h
  | cons x xs => exact h.1

theorem SegmentChain.tail {g : Segment} {rest : List Segment} (h : SegmentChain (g :: rest)) :
    SegmentChain rest := by
  cases rest with
  | nil => trivial
  | cons x xs => exact h.2.2.2

/-- The text after a segment of a chain is empty or starts with a word character. -/
theorem findFirstCharacter_joinSegments_tail {g : Segment} {rest : List Segment}
    (h : SegmentChain (g :: rest)) : findFirstCharacter (joinSegments rest) = 0 := by
  cases rest with
  | nil => rfl
  | cons x xs =>
    obtain ⟨_, _, hx, hc⟩ := h
    obtain ⟨w, s⟩ := x
    cases w with
    | nil => exact absurd rfl hx
    | cons d w =>
      have := (SegmentChain.head hc).1 d (List.mem_cons_self _ _)
      simp only [joinSegments, List.cons_append]
      rw [findFirstCharacter_cons]
      simp [this]

/-- The text after the word of a segment of a chain is empty or starts with a
separator. -/
theorem findFirstNonCharacter_segment_tail {g : Segment} {rest : List Segment}
    (h : SegmentChain (g :: rest)) :
    findFirstNonCharacter (g.2 ++ joinSegments rest) = 0 := by
  have hg := SegmentChain.head h
  obtain ⟨w, s⟩ := g
  cases s with
  | nil =>
    cases rest with
    | nil => rfl
    | cons x xs => exact absurd rfl h.2.1
  | cons d s =>
    have := hg.2.1 d (List.mem_cons_self _ _)
    simp only [List.cons_append]
    rw [findFirstNonCharacter_cons]
    simp [this]

theorem findFirstNonCharacter_joinSegments {g : Segment} {rest : List Segment}
    (h : SegmentChain (g :: rest)) :
    findFirstNonCharacter (joinSegments (g :: rest)) = g.1.length := by
  rw [joinSegments, findFirstNonCharacter_append _ _ (SegmentChain.head h).1,
    findFirstNonCharacter_segment_tail h]
  rfl

theorem jumpNextWord_joinSegments {g : Segment} {rest : List Segment}
    (h : SegmentChain (g :: rest)) :
    jumpNextWord (joinSegments (g :: rest)) = g.1.length + g.2.length := by
  unfold jumpNextWord
  have h1 := findFirstNonCharacter_le (joinSegments (g :: rest))
  simp only [h1, if_true]
  rw [findFirstNonCharacter_joinSegments h]
  have : (joinSegments (g :: rest)).drop g.1.length = g.2 ++ joinSegments rest := by
    rw [joinSegments]
    exact List.drop_left _ _
  rw [this, findFirstCharacter_append _ _ (SegmentChain.head h).2.1,
    findFirstCharacter_joinSegments_tail h]
  omega

theorem drop_joinSegments (g : Segment) (rest : List Segment) :
    (joinSegments (g :: rest)).drop (g.1.length + g.2.length) = joinSegments rest := by
  rw [joinSegments, ← List.append_assoc]
  exact List.drop_left' (by simp)

theorem tripletAt_joinSegments (segs : List Segment) (h : SegmentChain segs) :
    tripletAt (joinSegments segs) = (keysOf segs).head?
      ∧ keysOf segs = (tripletAt (joinSegments segs)).toList ++ keysOf segs.tail := by
  match segs, h with
  | [], _ => exact ⟨rfl, rfl⟩
  | [a], h =>
    refine ⟨?_, ?_⟩ <;>
    · unfold tripletAt
      simp only [jumpNextWord_joinSegments h, drop_joinSegments]
      simp [joinSegments, jumpNextWord_nil, keysOf]
  | [a, b], h =>
    have hb := SegmentChain.tail h
    refine ⟨?_, ?_⟩ <;>
    · unfold tripletAt
      simp only [jumpNextWord_joinSegments h, drop_joinSegments, jumpNextWord_joinSegments hb]
      rw [← List.drop_drop, drop_joinSegments, drop_joinSegments]
      simp [joinSegments, findFirstNonCharacter_nil, keysOf]
  | a :: b :: c :: rest, h =>
    have hb := SegmentChain.tail h
    have hc := SegmentChain.tail hb
    have ha1 := (SegmentChain.head h).2.2
    have hb1 := (SegmentChain.head hb).2.2
    have hc1 : 0 < c.1.length := List.length_pos.2 hb.2.2.1
    have key : tripletAt (joinSegments (a :: b :: c :: rest))
        = some (a.1 ++ (a.2 ++ (b.1 ++ (b.2 ++ c.1)))) := by
      unfold tripletAt
      simp only [jumpNextWord_joinSegments h, drop_joinSegments, jumpNextWord_joinSegments hb]
      rw [← List.drop_drop, drop_joinSegments, drop_joinSegments,
        findFirstNonCharacter_joinSegments hc]
      have hne : a.1.length + a.2.length ≠ 0 ∧ b.1.length + b.2.length ≠ 0 ∧ c.1.length ≠ 0 :=
        ⟨by omega, by omega, by omega⟩
      rw [if_pos hne]
      simp only [joinSegments, Option.some.injEq]
      have e : a.1 ++ (a.2 ++ (b.1 ++ (b.2 ++ (c.1 ++ (c.2 ++ joinSegments rest)))))
          = (a.1 ++ (a.2 ++ (b.1 ++ (b.2 ++ c.1)))) ++ (c.2 ++ joinSegments rest) := by
        simp
      rw [e]
      apply List.take_left'
      simp only [List.length_append]
      omega
    exact ⟨by rw [key]; rfl, by rw [key]; rfl⟩

theorem substr_suffix (buffer : List Nat) (offset : Nat) (h : offset ≤ buffer.length) :
    substr buffer offset (buffer.length - offset) = some (buffer.drop offset) := by
  unfold substr
  rw [if_pos h]
  congr 1
  exact List.take_of_length_le (by simp)

theorem calculateTripletsLoop_done (buffer : List Nat) (fuel offset : Nat) (map : TripletMap)
    (h : buffer.length ≤ offset) : calculateTripletsLoop buffer fuel offset map = some map := by
  unfold calculateTripletsLoop
  rw [if_neg (by omega)]

theorem substr_take (buffer : List Nat) (offset n : Nat) (h : offset ≤ buffer.length) :
    substr buffer offset n = some ((buffer.drop offset).take n) := by
  unfold substr
  rw [if_pos h]

theorem countKey_eq (map : TripletMap) (s : List Nat) (offset j1 j2 e : Nat) :
    (if offset ≠ offset + j1 ∧ offset + j1 + j2 ≠ offset + j1
        ∧ offset + j1 + j2 + e ≠ offset + j1 + j2 then
      increment map (s.take (j1 + j2 + e)) else map)
      = countKey map (if j1 ≠ 0 ∧ j2 ≠ 0 ∧ e ≠ 0 then some (s.take (j1 + j2 + e)) else none) := by
  by_cases h : j1 ≠ 0 ∧ j2 ≠ 0 ∧ e ≠ 0
  · rw [if_pos h, if_pos ⟨by omega, by omega, by omega⟩]
    rfl
  · rw [if_neg h, if_neg (by omega)]
    rfl

theorem calculateTripletsLoop_step (buffer : List Nat) (fuel offset : Nat) (map : TripletMap)
    (h : offset < buffer.length) :
    calculateTripletsLoop buffer (fuel + 1) offset map
      = calculateTripletsLoop buffer fuel (offset + jumpNextWord (buffer.drop offset))
          (countKey map (tripletAt (buffer.drop offset))) := by
  have hj1 := jumpNextWord_le (buffer.drop offset)
  have hj2 := jumpNextWord_le (buffer.drop (offset + jumpNextWord (buffer.drop offset)))
  simp only [List.length_drop] at hj1 hj2
  rw [calculateTripletsLoop]
  simp only [h, if_true]
  rw [substr_suffix buffer offset (by omega)]
  simp only [Option.some_bind]
  rw [substr_suffix buffer _ (by omega)]
  simp only [Option.some_bind]
  rw [substr_suffix buffer _ (by omega)]
  simp only [Option.some_bind]
  unfold tripletAt
  simp only [List.drop_drop]
  generalize jumpNextWord (List.drop offset buffer) = j1 at *
  generalize jumpNextWord (List.drop (offset + j1) buffer) = j2 at *
  rw [← Nat.add_assoc offset j1 j2]
  generalize findFirstNonCharacter (List.drop (offset + j1 + j2) buffer) = e
  have hsub : offset + j1 + j2 + e - offset = j1 + j2 + e := by omega
  rw [hsub, substr_take buffer offset _ (by omega)]
  simp only [Option.some_bind]
  rw [countKey_eq]

theorem foldl_increment_countKey (map : TripletMap) (o : Option (List Nat))
    (ks : List (List Nat)) :
    (o.toList ++ ks).foldl increment map = ks.foldl increment (countKey map o) := by
  cases o <;> rfl

theorem length_le_joinSegments (segs : List Segment) (h : SegmentChain segs) :
    segs.length ≤ (joinSegments segs).length := by
  induction segs with
  | nil => simp
  | cons g rest ih =>
    have h1 := (SegmentChain.head h).2.2
    have h2 := ih (SegmentChain.tail h)
    simp only [joinSegments, List.length_cons, List.length_append]
    omega

theorem calculateTripletsLoop_segments :
    ∀ (fuel : Nat) (pre : List Nat) (segs : List Segment) (map : TripletMap),
      SegmentChain segs → segs.length ≤ fuel →
      calculateTripletsLoop (pre ++ joinSegments segs) fuel pre.length map
        = some ((keysOf segs).foldl increment map) := by
  intro fuel
  induction fuel with
  | zero =>
    intro pre segs map _ hf
    have : segs = [] := List.length_eq_zero.1 (by omega)
    subst this
    exact calculateTripletsLoop_done _ _ _ _ (by simp [joinSegments])
  | succ fuel ih =>
    intro pre segs map hc hf
    cases segs with
    | nil => exact calculateTripletsLoop_done _ _ _ _ (by simp [joinSegments])
    | cons g rest =>
      have hg := (SegmentChain.head hc).2.2
      have hlt : pre.length < (pre ++ joinSegments (g :: rest)).length := by
        simp only [joinSegments, List.length_append]
        omega
      rw [calculateTripletsLoop_step _ _ _ _ hlt, List.drop_left,
        jumpNextWord_joinSegments hc]
      have hbuf : pre ++ joinSegments (g :: rest) = (pre ++ (g.1 ++ g.2)) ++ joinSegments rest := by
        simp [joinSegments]
      have hoff : pre.length + (g.1.length + g.2.length) = (pre ++ (g.1 ++ g.2)).length := by
        simp
      rw [hbuf, hoff, ih _ rest _ (SegmentChain.tail hc) (by simpa using hf)]
      have hk := (tripletAt_joinSegments (g :: rest) hc).2
      rw [hk, foldl_increment_countKey]
      rfl

theorem calculateTripletsForOneThread_segments (segs : List Segment) (map : TripletMap)
    (h : SegmentChain segs) :
    calculateTripletsForOneThread (joinSegments segs) map
      = some ((keysOf segs).foldl increment map) := by
  have := calculateTripletsLoop_segments (joinSegments segs).length [] segs map h
    (length_le_joinSegments segs h)
  simpa [calculateTripletsForOneThread] using this

theorem segments_spec (b : List Nat) :
    joinSegments (segments b) = b ∧ SegmentChain (segments b) := by
  induction b with
  | nil => exact ⟨rfl, trivial⟩
  | cons c rest ih =>
    obtain ⟨ih1, ih2⟩ := ih
    rw [segments]
    cases hs : segments rest with
    | nil =>
      rw [hs] at ih1
      simp only [joinSegments] at ih1
      subst ih1
      by_cases hc : shouldSkipCharacter c = true
      · simp only [hc, if_true]
        exact ⟨rfl, by simp [SegmentChain, SegmentOK, hc]⟩
      · have hc' : shouldSkipCharacter c = false := by simpa using hc
        simp only [hc', Bool.false_eq_true, if_false]
        exact ⟨rfl, by simp [SegmentChain, SegmentOK, hc']⟩
    | cons g more =>
      obtain ⟨w, s⟩ := g
      rw [hs] at ih1 ih2
      have hg := SegmentChain.head ih2
      simp only at hg
      by_cases hc : shouldSkipCharacter c = true
      · simp only [hc, if_true]
        by_cases hw : w = []
        · subst hw
          simp only [if_true]
          refine ⟨by rw [← ih1]; rfl, ?_⟩
          cases more with
          | nil =>
            simp only [SegmentChain, SegmentOK] at ih2 ⊢
            refine ⟨by simp, ?_, by simp⟩
            intro x hx
            rcases List.mem_cons.1 hx with rfl | hx
            · exact hc
            · exact ih2.2.1 x hx
          | cons h more =>
            simp only [SegmentChain, SegmentOK] at ih2 ⊢
            refine ⟨⟨by simp, ?_, by simp⟩, by simp, ih2.2.2.1, ih2.2.2.2⟩
            intro x hx
            rcases List.mem_cons.1 hx with rfl | hx
            · exact hc
            · exact ih2.1.2.1 x hx
        · simp only [hw, if_false]
          refine ⟨by rw [← ih1]; rfl, ?_⟩
          exact ⟨by simp [SegmentOK, hc], by simp, hw, ih2⟩
      · have hc' : shouldSkipCharacter c = false := by simpa using hc
        simp only [hc', Bool.false_eq_true, if_false]
        refine ⟨by rw [← ih1]; rfl, ?_⟩
        have hword : ∀ x ∈ c :: w, shouldSkipCharacter x = false := by
          intro x hx
          rcases List.mem_cons.1 hx with rfl | hx
          · exact hc'
          · exact hg.1 x hx
        cases more with
        | nil =>
          simp only [SegmentChain, SegmentOK] at ih2 ⊢
          exact ⟨hword, ih2.2.1, by simp⟩
        | cons h more =>
          simp only [SegmentChain, SegmentOK] at ih2 ⊢
          exact ⟨⟨hword, ih2.1.2.1, by simp⟩, ih2.2.1, ih2.2.2.1, ih2.2.2.2⟩

theorem calculateTripletsForOneThread_eq (text : List Nat) (map : TripletMap) :
    calculateTripletsForOneThread text map
      = some ((keysOf (segments text)).foldl increment map) := by
  have := calculateTripletsForOneThread_segments (segments text) map (segments_spec text).2
  rw [(segments_spec text).1] at this
  exact this

theorem joinSegments_wordSegments (words : List (List Nat)) :
    joinSegments (wordSegments words) = joinWords words := by
  induction words with
  | nil => rfl
  | cons w ws ih =>
    cases ws with
    | nil => simp [wordSegments, joinSegments, joinWords]
    | cons v vs =>
      rw [wordSegments, joinSegments, ih, joinWords]
      rfl

theorem segmentChain_wordSegments (words : List (List Nat)) (h : ∀ w ∈ words, IsWord w) :
    SegmentChain (wordSegments words) := by
  induction words with
  | nil => trivial
  | cons w ws ih =>
    have hw := h w (List.mem_cons_self _ _)
    have hlen : 0 < w.length := List.length_pos.2 hw.1
    cases ws with
    | nil =>
      simp only [wordSegments, SegmentChain, SegmentOK]
      exact ⟨hw.2, by simp, by simp; omega⟩
    | cons v vs =>
      have ih' := ih (fun x hx => h x (List.mem_cons_of_mem _ hx))
      have hv := h v (by simp)
      cases vs with
      | nil =>
        simp only [wordSegments, SegmentChain, SegmentOK] at ih' ⊢
        exact ⟨⟨hw.2, by simp [shouldSkipCharacter_space], by simp⟩, by simp, hv.1, ih'⟩
      | cons u us =>
        simp only [wordSegments, SegmentChain, SegmentOK] at ih' ⊢
        exact ⟨⟨hw.2, by simp [shouldSkipCharacter_space], by simp⟩, by simp, hv.1, ih'⟩

theorem keysOf_wordSegments (words : List (List Nat)) :
    keysOf (wordSegments words) = tripletTexts words := by
  induction words with
  | nil => rfl
  | cons a ws ih =>
    cases ws with
    | nil => rfl
    | cons b ws =>
      cases ws with
      | nil => rfl
      | cons c ws =>
        cases ws with
        | nil =>
          simp only [wordSegments, keysOf, tripletTexts] at ih ⊢
          simp
        | cons d ws =>
          simp only [wordSegments, keysOf, tripletTexts] at ih ⊢
          rw [ih]
          simp

theorem countOf_increment (map : TripletMap) (key k : List Nat) :
    countOf (increment map key) k = countOf map k + if key = k then 1 else 0 := by
  induction map with
  | nil => simp [increment, countOf]
  | cons e map ih =>
    obtain ⟨k', c⟩ := e
    rw [increment]
    by_cases h1 : k' = key
    · subst h1
      simp only [if_true, countOf]
      by_cases h2 : k' = k <;> simp [h2]
    · simp only [h1, if_false, countOf]
      by_cases h2 : k' = k
      · subst h2
        simp [Ne.symm h1]
      · simp [h2, ih]

theorem countOf_foldl_increment (keys : List (List Nat)) :
    ∀ (map : TripletMap) (k : List Nat),
      countOf (keys.foldl increment map) k = countOf map k + keys.count k := by
  induction keys with
  | nil => intro map k; simp
  | cons key keys ih =>
    intro map k
    rw [List.foldl_cons, ih, countOf_increment, List.count_cons]
    by_cases h : key = k <;> simp [h] <;> omega

theorem map_fst_increment (map : TripletMap) (key : List Nat) :
    (increment map key).map Prod.fst
      = if key ∈ map.map Prod.fst then map.map Prod.fst else map.map Prod.fst ++ [key] := by
  induction map with
  | nil => simp [increment]
  | cons e map ih =>
    obtain ⟨k', c⟩ := e
    rw [increment]
    by_cases h1 : k' = key
    · subst h1
      simp
    · simp only [h1, if_false, List.map_cons, ih, List.mem_cons]
      have h1' : ¬ key = k' := fun h => h1 h.symm
      by_cases h2 : key ∈ map.map Prod.fst
      · simp [h2]
      · simp [h2, h1']

theorem tableOK_increment (map : TripletMap) (key : List Nat) (h : TableOK map) :
    TableOK (increment map key) := by
  constructor
  · rw [map_fst_increment]
    split
    · exact h.1
    · rename_i hk
      rw [List.nodup_append]
      refine ⟨h.1, by simp, ?_⟩
      intro a ha hb
      simp only [List.mem_singleton] at hb
      exact hk (hb ▸ ha)
  · induction map with
    | nil =>
      intro e he
      simp only [increment, List.mem_singleton] at he
      subst he
      exact Nat.le_refl 1
    | cons e map ih =>
      obtain ⟨k', c⟩ := e
      have hrest : TableOK map :=
        ⟨(List.nodup_cons.1 h.1).2, fun x hx => h.2 x (List.mem_cons_of_mem _ hx)⟩
      intro x hx
      rw [increment] at hx
      split at hx
      · rcases List.mem_cons.1 hx with rfl | hx
        · exact Nat.le_add_left 1 c
        · exact h.2 x (List.mem_cons_of_mem _ hx)
      · rcases List.mem_cons.1 hx with rfl | hx
        · exact h.2 _ (List.mem_cons_self _ _)
        · exact ih hrest x hx

theorem tableOK_foldl_increment (keys : List (List Nat)) :
    ∀ map : TripletMap, TableOK map → TableOK (keys.foldl increment map) := by
  induction keys with
  | nil => intro map h; exact h
  | cons key keys ih =>
    intro map h
    exact ih _ (tableOK_increment map key h)

theorem mem_keys_iff_countOf (map : TripletMap) (h : TableOK map) (k : List Nat) :
    k ∈ map.map Prod.fst ↔ 0 < countOf map k := by
  induction map with
  | nil => simp [countOf]
  | cons e map ih =>
    obtain ⟨k', c⟩ := e
    have hrest : TableOK map :=
      ⟨(List.nodup_cons.1 h.1).2, fun x hx => h.2 x (List.mem_cons_of_mem _ hx)⟩
    have hc : 1 ≤ c := h.2 (k', c) (List.mem_cons_self _ _)
    rw [countOf]
    by_cases h1 : k' = k
    · subst h1
      simp
      omega
    · have h1' : ¬ k = k' := fun h => h1 h.symm
      simp only [h1, if_false, List.map_cons, List.mem_cons, h1', false_or]
      exact ih hrest

/-- C2. For every canonical buffer made of the words `w1..wW` separated by single
spaces, the run of `calculateTripletsForOneThread` over the whole buffer from the empty
table returns a table with distinct keys, whose keys are exactly the texts
`w_i w_(i+1) w_(i+2)` and in which the count of a key is the number of positions at
which that text occurs. -/
theorem calculateTripletsForOneThread_canonical (words : List (List Nat))
    (h : ∀ w ∈ words, IsWord w) :
    ∃ map, calculateTripletsForOneThread (joinWords words) [] = some map
      ∧ (map.map Prod.fst).Nodup
      ∧ (∀ k, k ∈ map.map Prod.fst ↔ k ∈ tripletTexts words)
      ∧ (∀ k, countOf map k = (tripletTexts words).count k)
      ∧ (tripletTexts words).length = words.length - 2 := by
  have hrun := calculateTripletsForOneThread_segments (wordSegments words) []
    (segmentChain_wordSegments words h)
  rw [joinSegments_wordSegments, keysOf_wordSegments] at hrun
  have hok : TableOK ((tripletTexts words).foldl increment []) :=
    tableOK_foldl_increment _ [] ⟨by simp, by simp⟩
  have hcount : ∀ k, countOf ((tripletTexts words).foldl increment []) k
      = (tripletTexts words).count k := by
    intro k
    rw [countOf_foldl_increment]
    simp [countOf]
  refine ⟨_, hrun, hok.1, ?_, hcount, ?_⟩
  · intro k
    rw [mem_keys_iff_countOf _ hok, hcount, List.count_pos_iff]
  · clear hrun hok hcount h
    induction words with
    | nil => rfl
    | cons a ws ih =>
      cases ws with
      | nil => rfl
      | cons b ws =>
        cases ws with
        | nil => rfl
        | cons c ws =>
          simp only [tripletTexts, List.length_cons] at ih ⊢
          omega

/-- Witness for C2: the canonical buffer `"a b c a b c"`. -/
theorem calculateTripletsForOneThread_canonical_witness :
    ∃ map, calculateTripletsForOneThread (joinWords [[97], [98], [99], [97], [98], [99]]) []
        = some map
      ∧ (map.map Prod.fst).Nodup
      ∧ (∀ k, k ∈ map.map Prod.fst
          ↔ k ∈ tripletTexts [[97], [98], [99], [97], [98], [99]])
      ∧ (∀ k, countOf map k = (tripletTexts [[97], [98], [99], [97], [98], [99]]).count k)
      ∧ (tripletTexts [[97], [98], [99], [97], [98], [99]]).length = 6 - 2 :=
  calculateTripletsForOneThread_canonical [[97], [98], [99], [97], [98], [99]]
    (by
      intro w hw
      simp only [List.mem_cons, List.mem_singleton, List.not_mem_nil, or_false] at hw
      rcases hw with rfl | rfl | rfl | rfl | rfl | rfl <;> exact ⟨by decide, by decide⟩)

/-- C10 (failing input). On the input `" a b"` the table built by `calculateTriplets`
holds the key `" a b"`: two words with a leading space. -/
theorem calculateTripletsTable_leading_space :
    calculateTripletsTable 1 [32, 97, 32, 98] = some [([32, 97, 32, 98], 1)] := by
  decide

/-! ## Partitioner -/

theorem joinSegments_append (l1 l2 : List Segment) :
    joinSegments (l1 ++ l2) = joinSegments l1 ++ joinSegments l2 := by
  induction l1 with
  | nil => rfl
  | cons g l1 ih => simp [joinSegments, ih]

theorem joinSegments_take_drop (m : Nat) (l : List Segment) :
    joinSegments (l.take m) ++ joinSegments (l.drop m) = joinSegments l := by
  rw [← joinSegments_append, List.take_append_drop]

theorem SegmentChain.drop {l : List Segment} (h : SegmentChain l) (m : Nat) :
    SegmentChain (l.drop m) := by
  induction m generalizing l with
  | zero => simpa using h
  | succ m ih =>
    cases l with
    | nil => trivial
    | cons g rest => exact ih (SegmentChain.tail h)

theorem SegmentChain.take {l : List Segment} (h : SegmentChain l) (m : Nat) :
    SegmentChain (l.take m) := by
  induction m generalizing l with
  | zero => trivial
  | succ m ih =>
    cases l with
    | nil => trivial
    | cons g rest =>
      have ht := ih (SegmentChain.tail h)
      cases rest with
      | nil => simpa using h
      | cons x xs =>
        cases m with
        | zero => exact h.1
        | succ m => exact ⟨h.1, h.2.1, h.2.2.1, ht⟩

theorem jumpNextWord_joinSegments_headLength (l : List Segment) (h : SegmentChain l) :
    jumpNextWord (joinSegments l) = headLength l := by
  cases l with
  | nil => rfl
  | cons g rest => exact jumpNextWord_joinSegments h

theorem length_joinSegments_take_succ (m : Nat) (l : List Segment) :
    (joinSegments (l.take (m + 1))).length
      = (joinSegments (l.take m)).length + headLength (l.drop m) := by
  induction m generalizing l with
  | zero =>
    cases l with
    | nil => rfl
    | cons g rest => simp [joinSegments, headLength]
  | succ m ih =>
    cases l with
    | nil => rfl
    | cons g rest =>
      have := ih rest
      simp only [List.take_succ_cons, joinSegments, List.length_append, List.drop_succ_cons]
        at this ⊢
      omega

theorem SegmentChain.replace_head {g g' : Segment} {rest : List Segment}
    (h : SegmentChain (g :: rest)) (hg : SegmentOK g') (h2 : rest ≠ [] → g'.2 ≠ []) :
    SegmentChain (g' :: rest) := by
  cases rest with
  | nil => exact hg
  | cons x xs => exact ⟨hg, h2 (by simp), h.2.2.1, h.2.2.2⟩

theorem jumpNextWord_drop_joinSegments {g : Segment} {rest : List Segment}
    (h : SegmentChain (g :: rest)) (c : Nat) (hc : c < g.1.length + g.2.length) :
    c + jumpNextWord ((joinSegments (g :: rest)).drop c) = g.1.length + g.2.length := by
  have hg := SegmentChain.head h
  by_cases h1 : c < g.1.length
  · have hd : (joinSegments (g :: rest)).drop c
        = joinSegments ((g.1.drop c, g.2) :: rest) := by
      simp only [joinSegments]
      rw [List.drop_append_of_le_length (by omega)]
    have hch : SegmentChain ((g.1.drop c, g.2) :: rest) := by
      refine SegmentChain.replace_head h ⟨?_, hg.2.1, ?_⟩ ?_
      · intro x hx
        exact hg.1 x (List.mem_of_mem_drop hx)
      · simp only [List.length_drop]
        omega
      · intro hr
        cases rest with
        | nil => exact absurd rfl hr
        | cons x xs => exact h.2.1
    rw [hd, jumpNextWord_joinSegments hch]
    simp only [List.length_drop]
    omega
  · have hd : (joinSegments (g :: rest)).drop c
        = joinSegments (([], g.2.drop (c - g.1.length)) :: rest) := by
      simp only [joinSegments, List.nil_append]
      rw [List.drop_append_eq_append_drop, List.drop_of_length_le (by omega), List.nil_append,
        List.drop_append_of_le_length (by omega)]
    have hlen : 0 < (g.2.drop (c - g.1.length)).length := by
      simp only [List.length_drop]
      omega
    have hch : SegmentChain (([], g.2.drop (c - g.1.length)) :: rest) := by
      refine SegmentChain.replace_head h ⟨by simp, ?_, ?_⟩ ?_
      · intro x hx
        exact hg.2.1 x (List.mem_of_mem_drop hx)
      · simpa using hlen
      · intro _
        exact List.length_pos.1 hlen
    rw [hd, jumpNextWord_joinSegments hch]
    simp only [List.length_drop, List.length_nil]
    omega

/-- The word boundary reached from a position inside a segmented text is the end of
one of its segments. -/
theorem jumpNextWord_boundary (l : List Segment) (h : SegmentChain l) :
    ∀ c : Nat, c < (joinSegments l).length →
      ∃ m, 1 ≤ m ∧ m ≤ l.length
        ∧ c + jumpNextWord ((joinSegments l).drop c) = (joinSegments (l.take m)).length := by
  induction l with
  | nil => intro c hc; simp [joinSegments] at hc
  | cons g rest ih =>
    intro c hc
    by_cases h1 : c < g.1.length + g.2.length
    · refine ⟨1, Nat.le_refl 1, by simp, ?_⟩
      rw [jumpNextWord_drop_joinSegments h c h1]
      simp [joinSegments]
    · have hlen : (joinSegments (g :: rest)).length
          = g.1.length + g.2.length + (joinSegments rest).length := by
        simp only [joinSegments, List.length_append]
        omega
      obtain ⟨m, hm1, hm2, hm3⟩ := ih (SegmentChain.tail h) (c - (g.1.length + g.2.length))
        (by omega)
      refine ⟨m + 1, by omega, by simp; omega, ?_⟩
      have hd : (joinSegments (g :: rest)).drop c
          = (joinSegments rest).drop (c - (g.1.length + g.2.length)) := by
        have : c = (g.1.length + g.2.length) + (c - (g.1.length + g.2.length)) := by omega
        rw [this, ← List.drop_drop, drop_joinSegments]
        congr 1
        omega
      rw [hd]
      simp only [List.take_succ_cons, joinSegments, List.length_append]
      omega

theorem keysOf_short (l : List Segment) (h : l.length < 3) : keysOf l = [] := by
  match l, h with
  | [], _ => rfl
  | [a], _ => rfl
  | [a, b], _ => rfl
  | a :: b :: c :: rest, h =>
    simp only [List.length_cons] at h
    omega

theorem keysOf_take_drop (m : Nat) :
    ∀ l : List Segment, keysOf (l.take (m + 2)) ++ keysOf (l.drop m) = keysOf l := by
  induction m with
  | zero =>
    intro l
    match l with
    | [] => rfl
    | [a] => rfl
    | [a, b] => rfl
    | a :: b :: c :: rest => simp [keysOf]
  | succ m ih =>
    intro l
    match l with
    | [] => rfl
    | [a] => simp [keysOf]
    | [a, b] =>
      rw [keysOf_short ([a, b].take (m + 1 + 2)) (by simp),
        keysOf_short ([a, b].drop (m + 1)) (by simp; omega)]
      rfl
    | a :: b :: c :: rest =>
      have := ih (b :: c :: rest)
      simp only [List.take_succ_cons, List.drop_succ_cons, keysOf] at this ⊢
      rw [List.cons_append, this]

theorem eq_nil_of_joinSegments_eq_nil (l : List Segment) (h : SegmentChain l)
    (h0 : (joinSegments l).length = 0) : l = [] := by
  have := length_le_joinSegments l h
  exact List.length_eq_zero.1 (by omega)

theorem drop_pre_joinSegments (pre : List Nat) (rest : List Segment) (m : Nat) :
    (pre ++ joinSegments rest).drop (pre.length + (joinSegments (rest.take m)).length)
      = joinSegments (rest.drop m) := by
  rw [← List.drop_drop, List.drop_left, ← joinSegments_take_drop m rest, List.drop_left]

theorem take_joinSegments (rest : List Segment) (m : Nat) :
    (joinSegments rest).take (joinSegments (rest.take m)).length = joinSegments (rest.take m) := by
  conv => lhs; rw [← joinSegments_take_drop m rest]
  exact List.take_left _ _

theorem length_joinSegments_take_le (rest : List Segment) (m : Nat) :
    (joinSegments (rest.take m)).length ≤ (joinSegments rest).length := by
  have := congrArg List.length (joinSegments_take_drop m rest)
  simp only [List.length_append] at this
  omega

theorem chunkBounds_inside (pre : List Nat) (rest : List Segment) (chunkSize : Nat)
    (h : SegmentChain rest)
    (hlt : pre.length + chunkSize < (pre ++ joinSegments rest).length) :
    ∃ m, 1 ≤ m ∧ m ≤ rest.length ∧ chunkSize < (joinSegments (rest.take m)).length
      ∧ chunkBounds (pre ++ joinSegments rest) chunkSize pre.length
          = some (pre.length, pre.length + (joinSegments (rest.take m)).length,
              pre.length + (joinSegments (rest.take (m + 2))).length) := by
  have hc : chunkSize < (joinSegments rest).length := by
    simp only [List.length_append] at hlt
    omega
  obtain ⟨m, hm1, hm2, hm3⟩ := jumpNextWord_boundary rest h chunkSize hc
  have hpos : 0 < jumpNextWord ((joinSegments rest).drop chunkSize) := by
    cases hd : (joinSegments rest).drop chunkSize with
    | nil =>
      have := congrArg List.length hd
      simp only [List.length_drop, List.length_nil] at this
      omega
    | cons x xs => exact jumpNextWord_pos x xs
  have hle1 := length_joinSegments_take_le rest m
  have hle2 := length_joinSegments_take_le rest (m + 1)
  have hs1 := length_joinSegments_take_succ m rest
  have hs2 : (joinSegments (rest.take (m + 2))).length
      = (joinSegments (rest.take (m + 1))).length + headLength (rest.drop (m + 1)) :=
    length_joinSegments_take_succ (m + 1) rest
  have hle3 := length_joinSegments_take_le rest (m + 2)
  refine ⟨m, hm1, hm2, by omega, ?_⟩
  unfold chunkBounds
  rw [if_pos hlt, substr_suffix _ _ (by omega)]
  simp only [Option.some_bind]
  have hd0 : (pre ++ joinSegments rest).drop (pre.length + chunkSize)
      = (joinSegments rest).drop chunkSize := by
    rw [← List.drop_drop, List.drop_left]
  rw [hd0]
  have he : pre.length + chunkSize + jumpNextWord ((joinSegments rest).drop chunkSize)
      = pre.length + (joinSegments (rest.take m)).length := by omega
  rw [he, substr_suffix _ _ (by simp only [List.length_append]; omega)]
  simp only [Option.some_bind]
  rw [drop_pre_joinSegments, jumpNextWord_joinSegments_headLength _ (h.drop m)]
  have he1 : pre.length + (joinSegments (rest.take m)).length + headLength (rest.drop m)
      = pre.length + (joinSegments (rest.take (m + 1))).length := by omega
  rw [he1, substr_suffix _ _ (by simp only [List.length_append]; omega)]
  simp only [Option.some_bind]
  rw [drop_pre_joinSegments, jumpNextWord_joinSegments_headLength _ (h.drop (m + 1))]
  have he2 : pre.length + (joinSegments (rest.take (m + 1))).length + headLength (rest.drop (m + 1))
      = pre.length + (joinSegments (rest.take (m + 2))).length := by omega
  rw [he2]

theorem chunkBounds_outside (text : List Nat) (chunkSize prevEndOffset : Nat)
    (hge : ¬ prevEndOffset + chunkSize < text.length) :
    chunkBounds text chunkSize prevEndOffset = some (prevEndOffset, text.length, text.length) := by
  unfold chunkBounds
  rw [if_neg hge]

theorem partitionStep_spec (pre : List Nat) (rest : List Segment) (chunkSize : Nat)
    (s : PartitionState) (h : SegmentChain rest) (hs : s.endOffset = pre.length) :
    ∃ s' pre' rest', partitionStep (pre ++ joinSegments rest) chunkSize s = some s'
      ∧ pre ++ joinSegments rest = pre' ++ joinSegments rest'
      ∧ SegmentChain rest'
      ∧ s'.endOffset = pre'.length
      ∧ (keysOf rest').foldl increment s'.map = (keysOf rest).foldl increment s.map
      ∧ min (pre ++ joinSegments rest).length (s.endOffset + chunkSize + 1) ≤ s'.endOffset := by
  by_cases hlt : pre.length + chunkSize < (pre ++ joinSegments rest).length
  · obtain ⟨m, hm1, hm2, hm3, hcb⟩ := chunkBounds_inside pre rest chunkSize h hlt
    have hs1 := length_joinSegments_take_succ m rest
    have hs2 : (joinSegments (rest.take (m + 2))).length
        = (joinSegments (rest.take (m + 1))).length + headLength (rest.drop (m + 1)) :=
      length_joinSegments_take_succ (m + 1) rest
    have hpos : 0 < pre.length + (joinSegments (rest.take (m + 2))).length - pre.length := by
      omega
    refine ⟨{ startOffset := pre.length,
              endOffset := pre.length + (joinSegments (rest.take m)).length,
              map := (keysOf (rest.take (m + 2))).foldl increment s.map },
      pre ++ joinSegments (rest.take m), rest.drop m, ?_, ?_, h.drop m, by simp, ?_, ?_⟩
    · unfold partitionStep
      rw [hs, hcb]
      simp only [Option.some_bind, gt_iff_lt, hpos, if_true]
      rw [substr_take _ _ _ (by simp)]
      simp only [Option.some_bind, Nat.add_sub_cancel_left, List.drop_left, take_joinSegments]
      rw [calculateTripletsForOneThread_segments _ _ (h.take (m + 2))]
      rfl
    · rw [List.append_assoc, joinSegments_take_drop]
    · simp only []
      rw [← List.foldl_append, keysOf_take_drop]
    · simp only []
      rw [hs]
      omega
  · have hcb := chunkBounds_outside (pre ++ joinSegments rest) chunkSize pre.length hlt
    by_cases hz : 0 < (joinSegments rest).length
    · refine ⟨{ startOffset := pre.length, endOffset := (pre ++ joinSegments rest).length,
                map := (keysOf rest).foldl increment s.map },
        pre ++ joinSegments rest, [], ?_, by simp [joinSegments], trivial, rfl, rfl, ?_⟩
      · unfold partitionStep
        rw [hs, hcb]
        have hpos : 0 < (pre ++ joinSegments rest).length - pre.length := by
          simp only [List.length_append]
          omega
        simp only [Option.some_bind, gt_iff_lt, hpos, if_true]
        rw [substr_suffix _ _ (by simp)]
        simp only [Option.some_bind, List.drop_left]
        rw [calculateTripletsForOneThread_segments _ _ h]
        rfl
      · exact Nat.min_le_left _ _
    · have hnil : rest = [] := eq_nil_of_joinSegments_eq_nil rest h (by omega)
      subst hnil
      refine ⟨{ startOffset := pre.length, endOffset := (pre ++ joinSegments []).length,
                map := s.map },
        pre, [], ?_, rfl, trivial, by simp [joinSegments], rfl, ?_⟩
      · unfold partitionStep
        rw [hs, hcb]
        simp [joinSegments]
      · exact Nat.min_le_left _ _

theorem partitionLoop_spec (text : List Nat) (chunkSize : Nat) :
    ∀ (n : Nat) (s : PartitionState) (pre : List Nat) (rest : List Segment),
      text = pre ++ joinSegments rest → SegmentChain rest → s.endOffset = pre.length →
      ∃ s' pre' rest', partitionLoop text chunkSize n s = some s'
        ∧ text = pre' ++ joinSegments rest'
        ∧ SegmentChain rest'
        ∧ s'.endOffset = pre'.length
        ∧ (keysOf rest').foldl increment s'.map = (keysOf rest).foldl increment s.map
        ∧ min text.length (s.endOffset + n * (chunkSize + 1)) ≤ s'.endOffset := by
  intro n
  induction n with
  | zero =>
    intro s pre rest ht hc hs
    refine ⟨s, pre, rest, rfl, ht, hc, hs, rfl, ?_⟩
    simp only [Nat.zero_mul, Nat.add_zero]
    exact Nat.min_le_right _ _
  | succ n ih =>
    intro s pre rest ht hc hs
    obtain ⟨s1, pre1, rest1, h1, h2, h3, h4, h5, h6⟩ :=
      partitionStep_spec pre rest chunkSize s hc hs
    rw [← ht] at h1 h2 h6
    obtain ⟨s2, pre2, rest2, k1, k2, k3, k4, k5, k6⟩ := ih s1 pre1 rest1 h2 h3 h4
    refine ⟨s2, pre2, rest2, ?_, k2, k3, k4, by rw [k5, h5], ?_⟩
    · rw [partitionLoop, h1]
      exact k1
    · have : (n + 1) * (chunkSize + 1) = n * (chunkSize + 1) + (chunkSize + 1) :=
        Nat.succ_mul _ _
      rw [this]
      omega

theorem countChunks_eq (numThreads : Nat) (text : List Nat) (hN : 1 ≤ numThreads) :
    countChunks numThreads text = some ((keysOf (segments text)).foldl increment []) := by
  obtain ⟨hj, hc⟩ := segments_spec text
  obtain ⟨s', pre', rest', h1, h2, h3, h4, h5, h6⟩ :=
    partitionLoop_spec text (text.length / numThreads) numThreads
      { startOffset := 0, endOffset := 0, map := [] } [] (segments text)
      (by simp [hj]) hc rfl
  have hbig : text.length < numThreads * (text.length / numThreads + 1) :=
    Nat.lt_mul_div_succ text.length (by omega)
  have hlen : text.length = pre'.length + (joinSegments rest').length := by
    have := congrArg List.length h2
    simpa using this
  have hnil : rest' = [] := by
    apply eq_nil_of_joinSegments_eq_nil rest' h3
    simp only [Nat.zero_add] at h6
    rw [Nat.min_eq_left (by omega)] at h6
    omega
  subst hnil
  unfold countChunks
  rw [h1]
  simp only [Option.map_some']
  rw [← h5]
  rfl

/-- C1. For every input buffer and every worker count `N ≥ 1`, `sanitizeBuffer` returns,
the run of `calculateTripletsForOneThread` over the whole normalised text from the empty
table returns a table, and the table left by the partition loop with `N` workers, each
non-empty chunk being scanned by `calculateTripletsForOneThread` into the shared table,
is that same table, as is the table obtained with one worker. -/
theorem calculateTripletsTable_parallel_serial (numThreads : Nat) (buffer : List Nat)
    (hN : 1 ≤ numThreads) :
    ∃ r map, sanitizeBuffer buffer = some r
      ∧ calculateTripletsForOneThread r.text [] = some map
      ∧ countChunks numThreads r.text = some map
      ∧ calculateTripletsTable numThreads buffer = some map
      ∧ calculateTripletsTable 1 buffer = some map := by
  obtain ⟨r, hr, _⟩ := sanitizeBuffer_spec buffer
  refine ⟨r, (keysOf (segments r.text)).foldl increment [], hr,
    calculateTripletsForOneThread_eq r.text [], countChunks_eq numThreads r.text hN, ?_, ?_⟩
  · unfold calculateTripletsTable
    rw [hr]
    exact countChunks_eq numThreads r.text hN
  · unfold calculateTripletsTable
    rw [hr]
    exact countChunks_eq 1 r.text (Nat.le_refl 1)

/-- Witness for C1: three workers on the input `"a b, c d"`. -/
theorem calculateTripletsTable_parallel_serial_witness :
    ∃ r map, sanitizeBuffer [97, 32, 98, 44, 32, 99, 32, 100] = some r
      ∧ calculateTripletsForOneThread r.text [] = some map
      ∧ countChunks 3 r.text = some map
      ∧ calculateTripletsTable 3 [97, 32, 98, 44, 32, 99, 32, 100] = some map
      ∧ calculateTripletsTable 1 [97, 32, 98, 44, 32, 99, 32, 100] = some map :=
  calculateTripletsTable_parallel_serial 3 [97, 32, 98, 44, 32, 99, 32, 100] (by decide)

/-! ## Coverage, selection and scenarios -/

theorem totalCount_increment (map : TripletMap) (key : List Nat) :
    totalCount (increment map key) = totalCount map + 1 := by
  induction map with
  | nil => simp [increment, totalCount]
  | cons e map ih =>
    obtain ⟨k, c⟩ := e
    rw [increment]
    split
    · simp [totalCount]
      omega
    · simp only [totalCount, List.map_cons, List.sum_cons] at ih ⊢
      omega

theorem totalCount_foldl_increment (keys : List (List Nat)) :
    ∀ map : TripletMap, totalCount (keys.foldl increment map) = totalCount map + keys.length := by
  induction keys with
  | nil => intro map; simp
  | cons key keys ih =>
    intro map
    rw [List.foldl_cons, ih, totalCount_increment, List.length_cons]
    omega

theorem length_tripletTexts (words : List (List Nat)) :
    (tripletTexts words).length = words.length - 2 := by
  induction words with
  | nil => rfl
  | cons a ws ih =>
    cases ws with
    | nil => rfl
    | cons b ws =>
      cases ws with
      | nil => rfl
      | cons c ws =>
        simp only [tripletTexts, List.length_cons] at ih ⊢
        omega

theorem calculateTripletsForOneThread_joinWords (words : List (List Nat))
    (h : ∀ w ∈ words, IsWord w) (map : TripletMap) :
    calculateTripletsForOneThread (joinWords words) map
      = some ((tripletTexts words).foldl increment map) := by
  have hrun := calculateTripletsForOneThread_segments (wordSegments words) map
    (segmentChain_wordSegments words h)
  rw [joinSegments_wordSegments, keysOf_wordSegments] at hrun
  exact hrun

/-- C11. For every canonical buffer made of `W ≥ 3` words separated by single spaces, the
run of `calculateTripletsForOneThread` over the whole buffer from the empty table returns
a table whose counts sum to `W - 2`. -/
theorem calculateTripletsForOneThread_coverage (words : List (List Nat))
    (h : ∀ w ∈ words, IsWord w) (hW : 3 ≤ words.length) :
    ∃ map, calculateTripletsForOneThread (joinWords words) [] = some map
      ∧ totalCount map + 2 = words.length := by
  refine ⟨_, calculateTripletsForOneThread_joinWords words h [], ?_⟩
  rw [totalCount_foldl_increment, length_tripletTexts]
  simp only [totalCount, List.map_nil, List.sum_nil]
  omega

/-- Witness for C11: the canonical buffer `"a b c a b c"`, six words and four triplets. -/
theorem calculateTripletsForOneThread_coverage_witness :
    ∃ map, calculateTripletsForOneThread (joinWords [[97], [98], [99], [97], [98], [99]]) []
        = some map
      ∧ totalCount map + 2 = 6 :=
  calculateTripletsForOneThread_coverage [[97], [98], [99], [97], [98], [99]]
    (by
      intro w hw
      simp only [List.mem_cons, List.mem_singleton, List.not_mem_nil, or_false] at hw
      rcases hw with rfl | rfl | rfl | rfl | rfl | rfl <;> exact ⟨by decide, by decide⟩)
    (by decide)

theorem length_shiftSlots (k : List Nat) :
    ∀ (result : TripletResult) (t : Triplet), (shiftSlots k t result).length = result.length := by
  intro result
  induction result with
  | nil => intro t; rfl
  | cons slot rest ih =>
    intro t
    rw [shiftSlots]
    split
    · simp
    · simp [ih slot]

theorem length_insertEntry (k : List Nat) (c : Nat) (result : TripletResult) :
    (insertEntry k c result).length = result.length := by
  induction result with
  | nil => rfl
  | cons slot rest ih =>
    rw [insertEntry]
    split
    · exact length_shiftSlots k (slot :: rest) _
    · simp [ih]

theorem length_selectFrom (entries : TripletMap) :
    ∀ result : TripletResult, (selectFrom result entries).length = result.length := by
  induction entries with
  | nil => intro result; rfl
  | cons e entries ih =>
    intro result
    have := ih (insertEntry e.1 e.2 result)
    simp only [selectFrom, List.foldl_cons] at this ⊢
    rw [this, length_insertEntry]

theorem length_stableSortDesc (ts : List Triplet) : (stableSortDesc ts).length = ts.length :=
  (stableSortDesc_perm ts).length_eq

/-- C12 (counterexample). On the input `"a b c"`, whose table holds one triplet,
`calculateTriplets` returns three slots: the triplet, then two slots with empty text and
count zero. -/
theorem calculateTriplets_single_triplet :
    calculateTriplets 1 (bytes "a b c")
      = some { result := [⟨bytes "a b c", 1⟩, ⟨[], 0⟩, ⟨[], 0⟩],
               numberOfWords := 3,
               map := [(bytes "a b c", 1)] } := by
  decide

/-- C12 (amended). The selection loop never changes the number of slots of the result,
so the returned result always has its three slots; when the table holds fewer than three
entries (distinct keys, counts at least one), the result is these entries sorted by
count, followed by default slots with empty text and count zero. -/
theorem selectTop_short_table (entries : TripletMap)
    (hkeys : (entries.map Prod.fst).Nodup) (hpos : ∀ e ∈ entries, 1 ≤ e.2)
    (hlt : entries.length < 3) :
    (∀ result : TripletResult, (selectFrom result entries).length = result.length)
      ∧ (selectTop entries).length = 3
      ∧ selectTop entries
          = stableSortDesc (entries.map toTriplet)
              ++ List.replicate (3 - entries.length) (⟨[], 0⟩ : Triplet) := by
  refine ⟨length_selectFrom entries, length_selectFrom entries emptyResult, ?_⟩
  rw [selectTop_eq entries hkeys hpos]
  have hlen : (stableSortDesc (entries.map toTriplet)).length = entries.length := by
    rw [length_stableSortDesc, List.length_map]
  rw [List.take_append_eq_append_take, List.take_of_length_le (by omega), hlen]
  congr 1
  have h3 : entries.length = 0 ∨ entries.length = 1 ∨ entries.length = 2 := by omega
  rcases h3 with h | h | h <;> rw [h] <;> rfl

/-- Witness for C12: a table with two entries. -/
theorem selectTop_short_table_witness :
    selectTop [([97], 1), ([98], 2)] = [⟨[98], 2⟩, ⟨[97], 1⟩, ⟨[], 0⟩] :=
  (selectTop_short_table [([97], 1), ([98], 2)] (by decide) (by decide) (by decide)).2.2.trans
    (by decide)

theorem selectTop_filled_mem (entries : TripletMap)
    (hkeys : (entries.map Prod.fst).Nodup) (hpos : ∀ e ∈ entries, 1 ≤ e.2)
    (t : Triplet) (ht : t ∈ selectTop entries) (h0 : t.count ≠ 0) :
    (t.words, t.count) ∈ entries := by
  rw [selectTop_eq entries hkeys hpos] at ht
  rcases List.mem_append.1 (List.mem_of_mem_take ht) with h | h
  · have := ((stableSortDesc_perm (entries.map toTriplet)).mem_iff).1 h
    obtain ⟨e, he, rfl⟩ := List.mem_map.1 this
    exact he
  · simp only [emptyResult, List.mem_cons, List.mem_singleton, List.not_mem_nil, or_false,
      or_self] at h
    rw [h] at h0
    exact absurd rfl h0

theorem selectTop_distinct (entries : TripletMap)
    (hkeys : (entries.map Prod.fst).Nodup) (hpos : ∀ e ∈ entries, 1 ≤ e.2) :
    (selectTop entries).Pairwise
      (fun a b : Triplet => a.count ≠ 0 → b.count ≠ 0 → a.words ≠ b.words) := by
  rw [selectTop_eq entries hkeys hpos]
  refine List.Pairwise.sublist (List.take_sublist _ _) ?_
  rw [List.pairwise_append]
  refine ⟨?_, by simp [emptyResult], ?_⟩
  · have hnd : (entries.map toTriplet).Pairwise (fun a b : Triplet => a.words ≠ b.words) := by
      have := hkeys
      rw [List.Nodup, List.pairwise_map] at this
      rw [List.pairwise_map]
      exact this
    have := (stableSortDesc_perm (entries.map toTriplet)).symm.pairwise hnd
      (fun hab h => hab h.symm)
    exact this.imp (fun h _ _ => h)
  · intro a _ b hb _ hb0
    simp only [emptyResult, List.mem_cons, List.mem_singleton, List.not_mem_nil, or_false,
      or_self] at hb
    rw [hb] at hb0
    exact absurd rfl hb0

theorem selectTop_counts_perm (entries1 entries2 : TripletMap) (hperm : entries1.Perm entries2)
    (hkeys : (entries1.map Prod.fst).Nodup) (hpos : ∀ e ∈ entries1, 1 ≤ e.2) :
    (selectTop entries1).map Triplet.count = (selectTop entries2).map Triplet.count := by
  have hkeys2 : (entries2.map Prod.fst).Nodup := (hperm.map Prod.fst).nodup_iff.1 hkeys
  have hpos2 : ∀ e ∈ entries2, 1 ≤ e.2 := fun e he => hpos e (hperm.mem_iff.2 he)
  rw [selectTop_eq entries1 hkeys hpos, selectTop_eq entries2 hkeys2 hpos2]
  simp only [List.map_take, List.map_append]
  congr 2
  haveI : IsAntisymm Nat (fun a b : Nat => b ≤ a) := ⟨fun a b h1 h2 => Nat.le_antisymm h2 h1⟩
  apply List.eq_of_perm_of_sorted (r := fun a b : Nat => b ≤ a)
  · have p1 := stableSortDesc_perm (entries1.map toTriplet)
    have p2 := stableSortDesc_perm (entries2.map toTriplet)
    exact ((p1.trans (hperm.map toTriplet)).trans p2.symm).map Triplet.count
  · exact List.pairwise_map.2 (stableSortDesc_sorted _)
  · exact List.pairwise_map.2 (stableSortDesc_sorted _)

/-- C20. For two visiting orders of the same table (distinct keys, counts at least one),
the selection loop yields the same count at each of the three ranks; every slot with a
non-zero count holds, in either order, an entry of the table. -/
theorem selectTop_order_independent (entries1 entries2 : TripletMap)
    (hperm : entries1.Perm entries2)
    (hkeys : (entries1.map Prod.fst).Nodup) (hpos : ∀ e ∈ entries1, 1 ≤ e.2) :
    (selectTop entries1).map Triplet.count = (selectTop entries2).map Triplet.count
      ∧ (selectTop entries1).length = 3 ∧ (selectTop entries2).length = 3
      ∧ (∀ t ∈ selectTop entries1, t.count ≠ 0 → (t.words, t.count) ∈ entries1)
      ∧ (∀ t ∈ selectTop entries2, t.count ≠ 0 → (t.words, t.count) ∈ entries1) := by
  have hkeys2 : (entries2.map Prod.fst).Nodup := (hperm.map Prod.fst).nodup_iff.1 hkeys
  have hpos2 : ∀ e ∈ entries2, 1 ≤ e.2 := fun e he => hpos e (hperm.mem_iff.2 he)
  refine ⟨selectTop_counts_perm entries1 entries2 hperm hkeys hpos,
    length_selectFrom entries1 emptyResult, length_selectFrom entries2 emptyResult,
    fun t ht h0 => selectTop_filled_mem entries1 hkeys hpos t ht h0,
    fun t ht h0 => hperm.mem_iff.2 (selectTop_filled_mem entries2 hkeys2 hpos2 t ht h0)⟩

/-- Witness for C20: a table with a tie at count 2, visited in two orders; the counts
by rank agree and the keys of the tied ranks are swapped. -/
theorem selectTop_order_independent_witness :
    selectTop [([97], 1), ([98], 2), ([99], 2), ([100], 3)]
        = [⟨[100], 3⟩, ⟨[98], 2⟩, ⟨[99], 2⟩]
      ∧ selectTop [([100], 3), ([99], 2), ([98], 2), ([97], 1)]
        = [⟨[100], 3⟩, ⟨[99], 2⟩, ⟨[98], 2⟩]
      ∧ (selectTop [([97], 1), ([98], 2), ([99], 2), ([100], 3)]).map Triplet.count
        = (selectTop [([100], 3), ([99], 2), ([98], 2), ([97], 1)]).map Triplet.count :=
  ⟨by decide, by decide,
    (selectTop_order_independent [([97], 1), ([98], 2), ([99], 2), ([100], 3)]
      [([100], 3), ([99], 2), ([98], 2), ([97], 1)]
      (by decide)
      (by decide) (by decide)).1⟩

/-- C13 (counterexample). On the input `"The cat sat. The cat ran. The cat sat."` the
text left by `sanitizeBuffer` and the word count it stores are not
`"the cat sat the cat ran the cat sat"` and 9: the text ends with a space and the count
is 10. -/
theorem sanitizeBuffer_scenario_differs :
    (sanitizeBuffer (bytes "The cat sat. The cat ran. The cat sat.")).map
        (fun r => (r.text, r.words))
      = some (bytes "the cat sat the cat ran the cat sat ", 10)
    ∧ (sanitizeBuffer (bytes "The cat sat. The cat ran. The cat sat.")).map
        (fun r => (r.text, r.words))
      ≠ some (bytes "the cat sat the cat ran the cat sat", 9) := by
  decide

/-- C13 (amended). On the input `"The cat sat. The cat ran. The cat sat."` the text left
by `sanitizeBuffer` is `"the cat sat the cat ran the cat sat "`, 36 bytes: the nine words
in lowercase separated by single spaces, and one space for the final full stop. -/
theorem sanitizeBuffer_scenario :
    (sanitizeBuffer (bytes "The cat sat. The cat ran. The cat sat.")).map
        (fun r => (r.text, r.length))
      = some (bytes "the cat sat the cat ran the cat sat ", 36) := by
  decide

theorem scenario_normalize :
    normalize (bytes "The cat sat. The cat ran. The cat sat.")
      = bytes "the cat sat the cat ran the cat sat " := by
  decide

theorem scenario_keys :
    (keysOf (segments (bytes "the cat sat the cat ran the cat sat "))).foldl increment []
      = scenarioTable := by
  decide

theorem scenario_table_eq (numThreads : Nat) (hN : 1 ≤ numThreads) :
    calculateTripletsTable numThreads (bytes "The cat sat. The cat ran. The cat sat.")
      = some scenarioTable := by
  obtain ⟨r, hr, _, _, htext, _⟩ :=
    sanitizeBuffer_spec (bytes "The cat sat. The cat ran. The cat sat.")
  rw [scenario_normalize] at htext
  unfold calculateTripletsTable
  rw [hr]
  simp only [Option.some_bind]
  rw [countChunks_eq numThreads _ hN, htext, scenario_keys]

/-- C14 (counterexample). For the input `"The cat sat. The cat ran. The cat sat."` the
table holds the count 1, not 2, for `"sat the cat"`. -/
theorem calculateTripletsTable_scenario_count :
    (calculateTripletsTable 1 (bytes "The cat sat. The cat ran. The cat sat.")).map
        (fun map => countOf map (bytes "sat the cat")) = some 1 := by
  rw [scenario_table_eq 1 (Nat.le_refl 1)]
  decide

/-- C14 (amended). For the input `"The cat sat. The cat ran. The cat sat."` and every
worker count `N ≥ 1`, the table is `"the cat sat"` with count 2 and `"cat sat the"`,
`"sat the cat"`, `"the cat ran"`, `"cat ran the"`, `"ran the cat"` with count 1; in
whatever order the selection loop visits it, the result is `("the cat sat", 2)` followed
by two different triplets of count 1. -/
theorem calculateTriplets_scenario (numThreads : Nat) (order : TripletMap)
    (hN : 1 ≤ numThreads) (horder : order.Perm scenarioTable) :
    calculateTripletsTable numThreads (bytes "The cat sat. The cat ran. The cat sat.")
        = some scenarioTable
      ∧ ∃ k1 k2, selectTop order = [⟨bytes "the cat sat", 2⟩, ⟨k1, 1⟩, ⟨k2, 1⟩]
          ∧ k1 ≠ k2 ∧ (k1, 1) ∈ scenarioTable ∧ (k2, 1) ∈ scenarioTable := by
  refine ⟨scenario_table_eq numThreads hN, ?_⟩
  have hkeys : (scenarioTable.map Prod.fst).Nodup := by decide
  have hpos : ∀ e ∈ scenarioTable, 1 ≤ e.2 := by decide
  have hkeys' : (order.map Prod.fst).Nodup := (horder.map Prod.fst).nodup_iff.2 hkeys
  have hpos' : ∀ e ∈ order, 1 ≤ e.2 := fun e he => hpos e (horder.mem_iff.1 he)
  have hcounts : (selectTop order).map Triplet.count = [2, 1, 1] := by
    rw [selectTop_counts_perm order scenarioTable horder hkeys' hpos']
    decide
  have hmem := selectTop_filled_mem order hkeys' hpos'
  have hdist := selectTop_distinct order hkeys' hpos'
  obtain ⟨t0, r0, hsel0, c0, h0⟩ := List.map_eq_cons_iff.1 hcounts
  obtain ⟨t1, r1, hsel1, c1, h1⟩ := List.map_eq_cons_iff.1 h0
  obtain ⟨t2, r2, hsel2, c2, h2⟩ := List.map_eq_cons_iff.1 h1
  have hr2 : r2 = [] := List.map_eq_nil_iff.1 h2
  have hsel : selectTop order = [t0, t1, t2] := by
    rw [hsel0, hsel1, hsel2, hr2]
  rw [hsel] at hmem hdist
  have m0 := horder.mem_iff.1 (hmem t0 (by simp) (by omega))
  have m1 := horder.mem_iff.1 (hmem t1 (by simp) (by omega))
  have m2 := horder.mem_iff.1 (hmem t2 (by simp) (by omega))
  rw [c0] at m0
  rw [c1] at m1
  rw [c2] at m2
  have hunique : ∀ e ∈ scenarioTable, e.2 = 2 → e.1 = bytes "the cat sat" := by decide
  have hw0 : t0.words = bytes "the cat sat" := hunique _ m0 rfl
  refine ⟨t1.words, t2.words, ?_, ?_, m1, m2⟩
  · rw [hsel]
    cases t0 with
    | mk w0 n0 =>
      cases t1 with
      | mk w1 n1 =>
        cases t2 with
        | mk w2 n2 =>
          simp only at c0 c1 c2 hw0
          rw [c0, c1, c2, hw0]
  · have := (List.pairwise_cons.1 (List.pairwise_cons.1 hdist).2).1 t2 (by simp)
    exact this (by omega) (by omega)

/-- Witness for C14: four workers, and the table visited from its last entry to its
first. -/
theorem calculateTriplets_scenario_witness :
    calculateTripletsTable 4 (bytes "The cat sat. The cat ran. The cat sat.")
        = some scenarioTable
      ∧ ∃ k1 k2, selectTop scenarioTable.reverse = [⟨bytes "the cat sat", 2⟩, ⟨k1, 1⟩, ⟨k2, 1⟩]
          ∧ k1 ≠ k2 ∧ (k1, 1) ∈ scenarioTable ∧ (k2, 1) ∈ scenarioTable :=
  calculateTriplets_scenario 4 scenarioTable.reverse (by decide) (List.reverse_perm _)

theorem countChunks_some_iff (numThreads : Nat) (text : List Nat) (map : TripletMap)
    (h : countChunks numThreads text = some map) :
    ∃ s, partitionLoop text (text.length / numThreads) numThreads
        { startOffset := 0, endOffset := 0, map := [] } = some s ∧ s.map = map := by
  unfold countChunks at h
  cases hp : partitionLoop text (text.length / numThreads) numThreads
      { startOffset := 0, endOffset := 0, map := [] } with
  | none => rw [hp] at h; simp at h
  | some s =>
    rw [hp] at h
    simp only [Option.map_some', Option.some.injEq] at h
    exact ⟨s, rfl, h⟩

theorem newTripletMap_of_lt (n : Nat) (h : n * 8 < 2 ^ 64) : newTripletMap n = some [] := by
  unfold newTripletMap
  rw [if_pos h]

theorem calculateTriplets_eq (numThreads : Nat) (buffer : List Nat) (hN : 1 ≤ numThreads)
    (r : SanitizeResult) (hr : sanitizeBuffer buffer = some r)
    (hb : maxNumberOfBuckets r.words * 8 < 2 ^ 64) :
    calculateTriplets numThreads buffer
      = some { result := selectTop ((keysOf (segments r.text)).foldl increment []),
               numberOfWords := r.words,
               map := (keysOf (segments r.text)).foldl increment [] } := by
  obtain ⟨s, hs, hmap⟩ := countChunks_some_iff numThreads r.text _
    (countChunks_eq numThreads r.text hN)
  unfold calculateTriplets
  rw [hr, Option.some_bind, newTripletMap_of_lt _ hb, Option.some_bind, hs, Option.some_bind,
    hmap]

theorem normalize_separators (seps rest : List Nat) (hne : seps ≠ [])
    (hs : ∀ x ∈ seps, shouldSkipCharacter x = true) (hrest : findFirstCharacter rest = 0) :
    normalize (seps ++ rest) = 32 :: normalize rest := by
  have hk : findFirstCharacter (seps ++ rest) = seps.length := by
    rw [findFirstCharacter_append seps rest hs, hrest]
    rfl
  have hpos : 0 < seps.length := List.length_pos.2 hne
  rw [normalize_skip (seps ++ rest), hk, List.drop_left]
  simp [hpos]

theorem isWord_map_tolower (w : List Nat) (h : IsWord w) : IsWord (w.map tolower) := by
  refine ⟨by simpa using h.1, ?_⟩
  intro x hx
  obtain ⟨y, hy, rfl⟩ := List.mem_map.1 hx
  rw [shouldSkipCharacter_tolower]
  exact h.2 y hy

theorem findFirstCharacter_word (w rest : List Nat) (h : IsWord w) :
    findFirstCharacter (w ++ rest) = 0 := by
  obtain ⟨hne, hall⟩ := h
  cases w with
  | nil => exact absurd rfl hne
  | cons d w =>
    rw [List.cons_append, findFirstCharacter_cons]
    simp [hall d (List.mem_cons_self _ _)]

theorem normalize_two_words (w1 seps w2 : List Nat) (h1 : IsWord w1) (h2 : IsWord w2)
    (hne : seps ≠ []) (hs : ∀ x ∈ seps, shouldSkipCharacter x = true) :
    normalize (w1 ++ seps ++ w2) = joinWords [w1.map tolower, w2.map tolower] := by
  have hw2 : normalize w2 = w2.map tolower := by
    have := normalize_word_append w2 [] h2.2
    simpa [normalize] using this
  have hf : findFirstCharacter w2 = 0 := by
    have := findFirstCharacter_word w2 [] h2
    simpa using this
  rw [List.append_assoc, normalize_word_append w1 _ h1.2,
    normalize_separators seps w2 hne hs hf, hw2]
  rfl

theorem maxNumberOfBuckets_one : maxNumberOfBuckets 1 = 2 ^ 64 - 1 := by
  decide

theorem newTripletMap_wrapped : newTripletMap (maxNumberOfBuckets 1) = none := by
  rw [maxNumberOfBuckets_one]
  unfold newTripletMap
  rw [if_neg (by omega)]

theorem sanitizeBuffer_nil : sanitizeBuffer [] = some { buffer := [], length := 0, words := 1 } := by
  decide

/-- C16 (failing input). On the empty buffer `sanitizeBuffer` stores `W = 1`, the bucket
count `numberOfWords - 2` wraps to `2^64 - 1`, and the construction of the table fails:
`calculateTriplets` does not return a result, whatever the worker count. -/
theorem calculateTriplets_empty_input (numThreads : Nat) :
    sanitizeBuffer [] = some { buffer := [], length := 0, words := 1 }
      ∧ maxNumberOfBuckets 1 = 2 ^ 64 - 1
      ∧ newTripletMap (maxNumberOfBuckets 1) = none
      ∧ calculateTriplets numThreads [] = none := by
  refine ⟨sanitizeBuffer_nil, maxNumberOfBuckets_one, newTripletMap_wrapped, ?_⟩
  unfold calculateTriplets
  rw [sanitizeBuffer_nil, Option.some_bind, newTripletMap_wrapped]
  rfl

theorem sanitizeBuffer_words_bounds (buffer : List Nat) :
    ∃ r, sanitizeBuffer buffer = some r ∧ 1 ≤ r.words ∧ r.words ≤ buffer.length + 1 := by
  obtain ⟨r, hr, _, hlen, htext, hwords⟩ := sanitizeBuffer_spec buffer
  refine ⟨r, hr, by omega, ?_⟩
  have h1 : (normalize buffer).count 32 ≤ (normalize buffer).length := List.count_le_length _ _
  have h2 : (normalize buffer).length ≤ r.length := by
    rw [← htext]
    simp [SanitizeResult.text]
  omega

theorem maxNumberOfBuckets_of_ge (w : Nat) (h2 : 2 ≤ w) (hlt : w < 2 ^ 64) :
    maxNumberOfBuckets w = w - 2 := by
  unfold maxNumberOfBuckets
  have : w + 2 ^ 64 - 2 = (w - 2) + 2 ^ 64 := by omega
  rw [this, Nat.add_mod_right, Nat.mod_eq_of_lt (by omega)]

theorem sanitizeBuffer_hi_there :
    sanitizeBuffer (bytes "hi there")
      = some { buffer := bytes "hi there", length := 8, words := 2 } := by
  decide

theorem maxNumberOfBuckets_two : maxNumberOfBuckets 2 = 0 := by
  decide

/-- C17 (counterexample). On the input `"hi there"` the word count is 2 and the bucket
count `numberOfWords - 2` with which the table is constructed is 0, not
`max(W - 2, 1) = 1`. -/
theorem maxNumberOfBuckets_two_words :
    (sanitizeBuffer (bytes "hi there")).map
        (fun r => (r.words, maxNumberOfBuckets r.words, max (r.words - 2) 1))
      = some (2, 0, 1) := by
  rw [sanitizeBuffer_hi_there]
  show some (2, maxNumberOfBuckets 2, max (2 - 2) 1) = some (2, 0, 1)
  rw [maxNumberOfBuckets_two]
  rfl

/-- C17 (amended). For every buffer shorter than `2^64 - 1` bytes, the word count `W`
stored by `sanitizeBuffer` is at least 1 and below `2^64`, and the bucket count with which
the table is constructed is `W - 2` in unsigned 64-bit arithmetic: `W - 2` when `W ≥ 2`,
in particular 0 when `W = 2`, and `2^64 - 1` when `W = 1`. -/
theorem maxNumberOfBuckets_eq (buffer : List Nat) (hlen : buffer.length + 1 < 2 ^ 64) :
    ∃ r, sanitizeBuffer buffer = some r ∧ 1 ≤ r.words ∧ r.words < 2 ^ 64
      ∧ maxNumberOfBuckets r.words = (if 2 ≤ r.words then r.words - 2 else 2 ^ 64 - 1) := by
  obtain ⟨r, hr, h1, h2⟩ := sanitizeBuffer_words_bounds buffer
  refine ⟨r, hr, h1, by omega, ?_⟩
  by_cases h : 2 ≤ r.words
  · rw [if_pos h]
    exact maxNumberOfBuckets_of_ge r.words h (by omega)
  · rw [if_neg h]
    have : r.words = 1 := by omega
    rw [this]
    exact maxNumberOfBuckets_one

/-- Witness for C17: the input `"hi there"`. -/
theorem maxNumberOfBuckets_eq_witness :
    ∃ r, sanitizeBuffer (bytes "hi there") = some r
      ∧ 1 ≤ r.words ∧ r.words < 2 ^ 64
      ∧ maxNumberOfBuckets r.words = (if 2 ≤ r.words then r.words - 2 else 2 ^ 64 - 1) :=
  maxNumberOfBuckets_eq (bytes "hi there") (by decide)

/-! ## Chunk bounds -/

theorem chunkBounds_bounds (text : List Nat) (chunkSize prevEndOffset : Nat)
    (h : prevEndOffset ≤ text.length) :
    ∃ e c, chunkBounds text chunkSize prevEndOffset = some (prevEndOffset, e, c)
      ∧ prevEndOffset ≤ e ∧ e ≤ c ∧ c ≤ text.length
      ∧ min text.length (prevEndOffset + chunkSize + 1) ≤ e
      ∧ (e = text.length → c = text.length) := by
  by_cases hlt : prevEndOffset + chunkSize < text.length
  · have hj0 := jumpNextWord_le (text.drop (prevEndOffset + chunkSize))
    have hpos : 0 < jumpNextWord (text.drop (prevEndOffset + chunkSize)) := by
      cases hd : text.drop (prevEndOffset + chunkSize) with
      | nil =>
        have := congrArg List.length hd
        simp only [List.length_drop, List.length_nil] at this
        omega
      | cons x xs => exact jumpNextWord_pos x xs
    simp only [List.length_drop] at hj0
    unfold chunkBounds
    rw [if_pos hlt, substr_suffix _ _ (by omega)]
    simp only [Option.some_bind]
    generalize jumpNextWord (text.drop (prevEndOffset + chunkSize)) = j0 at hj0 hpos ⊢
    have hj1 := jumpNextWord_le (text.drop (prevEndOffset + chunkSize + j0))
    simp only [List.length_drop] at hj1
    rw [substr_suffix text (prevEndOffset + chunkSize + j0) (by omega)]
    simp only [Option.some_bind]
    generalize jumpNextWord (text.drop (prevEndOffset + chunkSize + j0)) = j1 at hj1 ⊢
    have hj2 := jumpNextWord_le (text.drop (prevEndOffset + chunkSize + j0 + j1))
    simp only [List.length_drop] at hj2
    rw [substr_suffix text (prevEndOffset + chunkSize + j0 + j1) (by omega)]
    simp only [Option.some_bind]
    generalize jumpNextWord (text.drop (prevEndOffset + chunkSize + j0 + j1)) = j2 at hj2 ⊢
    refine ⟨_, _, rfl, by omega, by omega, by omega, ?_, by omega⟩
    exact Nat.le_trans (Nat.min_le_right _ _) (by omega)
  · refine ⟨text.length, text.length, chunkBounds_outside text chunkSize prevEndOffset hlt,
      h, Nat.le_refl _, Nat.le_refl _, Nat.min_le_left _ _, fun _ => rfl⟩

theorem chunkTrace_spec (text : List Nat) (chunkSize : Nat) :
    ∀ (n prevEndOffset : Nat), prevEndOffset ≤ text.length →
      ∃ chunks fin, chunkTrace text chunkSize n prevEndOffset = some chunks
        ∧ chunks.length = n
        ∧ (∀ ch ∈ chunks, ch.1 ≤ ch.2.1 ∧ ch.2.1 ≤ ch.2.2 ∧ ch.2.2 ≤ text.length)
        ∧ chunks.Chain' (fun a b => b.1 = a.2.1)
        ∧ (∀ ch, chunks.head? = some ch → ch.1 = prevEndOffset)
        ∧ prevEndOffset ≤ fin ∧ fin ≤ text.length
        ∧ min text.length (prevEndOffset + n * (chunkSize + 1)) ≤ fin
        ∧ (chunks = [] → fin = prevEndOffset)
        ∧ (∀ ch, chunks.getLast? = some ch →
            ch.2.1 = fin ∧ (fin = text.length → ch.2.2 = text.length))
        ∧ (∀ p, prevEndOffset ≤ p → p < fin → ∃ ch ∈ chunks, ch.1 ≤ p ∧ p < ch.2.2) := by
  intro n
  induction n with
  | zero =>
    intro prevEndOffset h
    refine ⟨[], prevEndOffset, rfl, rfl, by simp, by simp, by simp, Nat.le_refl _, h,
      ?_, fun _ => rfl, by simp, ?_⟩
    · simp only [Nat.zero_mul, Nat.add_zero]
      exact Nat.min_le_right _ _
    · intro p h1 h2
      omega
  | succ n ih =>
    intro prevEndOffset h
    obtain ⟨e, c, hb, b1, b2, b3, b4, b5⟩ := chunkBounds_bounds text chunkSize prevEndOffset h
    obtain ⟨rest, fin, r1, r2, r3, r4, r5, r6, r7, r8, r9, r10, r11⟩ := ih e (by omega)
    refine ⟨(prevEndOffset, e, c) :: rest, fin, ?_, by simp [r2], ?_, ?_, ?_, by omega, r7,
      ?_, by simp, ?_, ?_⟩
    · rw [chunkTrace, hb, Option.some_bind, r1]
      rfl
    · intro ch hch
      rcases List.mem_cons.1 hch with rfl | hch
      · exact ⟨b1, b2, b3⟩
      · exact r3 ch hch
    · rw [List.chain'_cons']
      refine ⟨?_, r4⟩
      intro y hy
      exact r5 y hy
    · intro ch hch
      simp only [List.head?_cons, Option.some.injEq] at hch
      rw [← hch]
    · have : (n + 1) * (chunkSize + 1) = n * (chunkSize + 1) + (chunkSize + 1) :=
        Nat.succ_mul _ _
      rw [this]
      omega
    · intro ch hch
      cases rest with
      | nil =>
        simp only [List.getLast?_singleton, Option.some.injEq] at hch
        have hf := r9 rfl
        rw [← hch]
        exact ⟨hf.symm, fun hfin => b5 (by omega)⟩
      | cons y ys =>
        rw [List.getLast?_cons_cons] at hch
        exact r10 ch hch
    · intro p h1 h2
      by_cases hp : p < e
      · exact ⟨(prevEndOffset, e, c), List.mem_cons_self _ _, h1, by simp only; omega⟩
      · obtain ⟨ch, hch, hc1, hc2⟩ := r11 p (by omega) h2
        exact ⟨ch, List.mem_cons_of_mem _ hch, hc1, hc2⟩

theorem partitionLoop_reaches_end (numThreads : Nat) (text : List Nat) (hN : 1 ≤ numThreads) :
    ∃ s, partitionLoop text (text.length / numThreads) numThreads
        { startOffset := 0, endOffset := 0, map := [] } = some s
      ∧ s.endOffset = text.length := by
  obtain ⟨hj, hc⟩ := segments_spec text
  obtain ⟨s', pre', rest', h1, h2, h3, h4, h5, h6⟩ :=
    partitionLoop_spec text (text.length / numThreads) numThreads
      { startOffset := 0, endOffset := 0, map := [] } [] (segments text)
      (by simp [hj]) hc rfl
  have hbig : text.length < numThreads * (text.length / numThreads + 1) :=
    Nat.lt_mul_div_succ text.length (by omega)
  have hlen : text.length = pre'.length + (joinSegments rest').length := by
    have := congrArg List.length h2
    simpa using this
  simp only [Nat.zero_add] at h6
  rw [Nat.min_eq_left (by omega)] at h6
  exact ⟨s', h1, by omega⟩

theorem chunkTrace_full (numThreads : Nat) (text : List Nat) (hN : 1 ≤ numThreads) :
    ∃ chunks, chunkTrace text (text.length / numThreads) numThreads 0 = some chunks
      ∧ chunks.length = numThreads
      ∧ (∀ ch ∈ chunks, ch.1 ≤ ch.2.1 ∧ ch.2.1 ≤ ch.2.2 ∧ ch.2.2 ≤ text.length)
      ∧ chunks.Chain' (fun a b => b.1 = a.2.1)
      ∧ (∀ ch, chunks.head? = some ch → ch.1 = 0)
      ∧ (∀ ch, chunks.getLast? = some ch → ch.2.1 = text.length ∧ ch.2.2 = text.length)
      ∧ (∀ p, p < text.length → ∃ ch ∈ chunks, ch.1 ≤ p ∧ p < ch.2.2) := by
  obtain ⟨chunks, fin, r1, r2, r3, r4, r5, r6, r7, r8, r9, r10, r11⟩ :=
    chunkTrace_spec text (text.length / numThreads) numThreads 0 (Nat.zero_le _)
  have hbig : text.length < numThreads * (text.length / numThreads + 1) :=
    Nat.lt_mul_div_succ text.length (by omega)
  have hfin : fin = text.length := by
    simp only [Nat.zero_add] at r8
    rw [Nat.min_eq_left (by omega)] at r8
    omega
  refine ⟨chunks, r1, r2, r3, r4, r5, ?_, ?_⟩
  · intro ch hch
    obtain ⟨h1, h2⟩ := r10 ch hch
    exact ⟨by omega, h2 hfin⟩
  · intro p hp
    exact r11 p (Nat.zero_le _) (by omega)

/-- C18. For every text and every worker count `N ≥ 1`, the partition loop runs its `N`
iterations and leaves `endOffset = text.size()`; the chunk bounds of the iterations start
at offset 0, each chunk starts at the `endOffset` of the one before, in the last iteration
`endOffset` and `chunkOffset` both equal `text.size()`, and every position of the text
lies in some chunk `[startOffset, chunkOffset)`. -/
theorem partition_reaches_end (numThreads : Nat) (text : List Nat) (hN : 1 ≤ numThreads) :
    (∃ s, partitionLoop text (text.length / numThreads) numThreads
        { startOffset := 0, endOffset := 0, map := [] } = some s
      ∧ s.endOffset = text.length)
    ∧ ∃ chunks, chunkTrace text (text.length / numThreads) numThreads 0 = some chunks
      ∧ chunks.length = numThreads
      ∧ (∀ ch, chunks.head? = some ch → ch.1 = 0)
      ∧ chunks.Chain' (fun a b => b.1 = a.2.1)
      ∧ (∀ ch, chunks.getLast? = some ch → ch.2.1 = text.length ∧ ch.2.2 = text.length)
      ∧ (∀ p, p < text.length → ∃ ch ∈ chunks, ch.1 ≤ p ∧ p < ch.2.2) := by
  obtain ⟨chunks, h1, h2, _, h4, h5, h6, h7⟩ := chunkTrace_full numThreads text hN
  exact ⟨partitionLoop_reaches_end numThreads text hN, chunks, h1, h2, h5, h4, h6, h7⟩

/-- Witness for C18: the text `"a b c d e f g"` of 13 bytes with two workers, where
`13 / 2` leaves a remainder. -/
theorem partition_reaches_end_witness :
    chunkTrace (bytes "a b c d e f g") (13 / 2) 2 0 = some [(0, 8, 12), (8, 13, 13)]
    ∧ ((∃ s, partitionLoop (bytes "a b c d e f g") ((bytes "a b c d e f g").length / 2) 2
          { startOffset := 0, endOffset := 0, map := [] } = some s
        ∧ s.endOffset = (bytes "a b c d e f g").length)
      ∧ ∃ chunks, chunkTrace (bytes "a b c d e f g") ((bytes "a b c d e f g").length / 2) 2 0
          = some chunks
        ∧ chunks.length = 2
        ∧ (∀ ch, chunks.head? = some ch → ch.1 = 0)
        ∧ chunks.Chain' (fun a b => b.1 = a.2.1)
        ∧ (∀ ch, chunks.getLast? = some ch →
            ch.2.1 = (bytes "a b c d e f g").length ∧ ch.2.2 = (bytes "a b c d e f g").length)
        ∧ (∀ p, p < (bytes "a b c d e f g").length → ∃ ch ∈ chunks, ch.1 ≤ p ∧ p < ch.2.2)) :=
  ⟨by decide, partition_reaches_end 2 (bytes "a b c d e f g") (by decide)⟩

/-- C19. For every buffer `b`, `findFirstNonCharacter b` and `jumpNextWord b` are at most
the size of `b`; `calculateTripletsForOneThread` returns on every buffer, so no `substr`
of its loop is given a position beyond the size, and the offsets of an iteration satisfy
`offset ≤ secondWordOffset ≤ thirdWordOffset ≤ tripletEndOffset ≤ size`; and for every
input buffer and worker count `N ≥ 1` the partition loop returns, with
`startOffset ≤ endOffset ≤ chunkOffset ≤ size` in every iteration, so that
`chunkOffset - startOffset` does not wrap. -/
theorem bounds_safety (numThreads : Nat) (buffer : List Nat) (hN : 1 ≤ numThreads) :
    (∀ b : List Nat, findFirstNonCharacter b ≤ b.length ∧ jumpNextWord b ≤ b.length)
    ∧ (∀ (b : List Nat) (map : TripletMap), ∃ m, calculateTripletsForOneThread b map = some m)
    ∧ (∀ (b : List Nat) (offset : Nat), offset ≤ b.length →
        offset ≤ offset + jumpNextWord (b.drop offset)
        ∧ offset + jumpNextWord (b.drop offset)
            ≤ offset + jumpNextWord (b.drop offset)
              + jumpNextWord (b.drop (offset + jumpNextWord (b.drop offset)))
        ∧ offset + jumpNextWord (b.drop offset)
              + jumpNextWord (b.drop (offset + jumpNextWord (b.drop offset)))
              + findFirstNonCharacter (b.drop (offset + jumpNextWord (b.drop offset)
                  + jumpNextWord (b.drop (offset + jumpNextWord (b.drop offset)))))
            ≤ b.length)
    ∧ ∃ r chunks m, sanitizeBuffer buffer = some r
        ∧ chunkTrace r.text (r.text.length / numThreads) numThreads 0 = some chunks
        ∧ (∀ ch ∈ chunks, ch.1 ≤ ch.2.1 ∧ ch.2.1 ≤ ch.2.2 ∧ ch.2.2 ≤ r.text.length)
        ∧ countChunks numThreads r.text = some m := by
  refine ⟨fun b => ⟨findFirstNonCharacter_le b, jumpNextWord_le b⟩,
    fun b map => ⟨_, calculateTripletsForOneThread_eq b map⟩, ?_, ?_⟩
  · intro b offset hoff
    have h1 := jumpNextWord_le (b.drop offset)
    have h2 := jumpNextWord_le (b.drop (offset + jumpNextWord (b.drop offset)))
    have h3 := findFirstNonCharacter_le (b.drop (offset + jumpNextWord (b.drop offset)
      + jumpNextWord (b.drop (offset + jumpNextWord (b.drop offset)))))
    simp only [List.length_drop] at h1 h2 h3
    omega
  · obtain ⟨r, hr, _⟩ := sanitizeBuffer_spec buffer
    obtain ⟨chunks, h1, _, h3, _⟩ := chunkTrace_full numThreads r.text hN
    exact ⟨r, chunks, _, hr, h1, h3, countChunks_eq numThreads r.text hN⟩

/-- Witness for C19: three workers on the input `"a b, c d"`. -/
theorem bounds_safety_witness :
    ∃ r chunks m, sanitizeBuffer (bytes "a b, c d") = some r
      ∧ chunkTrace r.text (r.text.length / 3) 3 0 = some chunks
      ∧ (∀ ch ∈ chunks, ch.1 ≤ ch.2.1 ∧ ch.2.1 ≤ ch.2.2 ∧ ch.2.2 ≤ r.text.length)
      ∧ countChunks 3 r.text = some m :=
  (bounds_safety 3 (bytes "a b, c d") (by decide)).2.2.2

/-! ## Inputs of two words -/

theorem normalize_trailing (trail : List Nat) (ht : ∀ x ∈ trail, shouldSkipCharacter x = true) :
    normalize trail = if trail = [] then [] else [32] := by
  by_cases h : trail = []
  · rw [if_pos h, h]
    rfl
  · rw [if_neg h]
    have := normalize_separators trail [] h ht rfl
    simpa [normalize] using this

theorem normalize_two_words_trailing (w1 seps w2 trail : List Nat) (h1 : IsWord w1)
    (h2 : IsWord w2) (hne : seps ≠ []) (hs : ∀ x ∈ seps, shouldSkipCharacter x = true)
    (ht : ∀ x ∈ trail, shouldSkipCharacter x = true) :
    normalize (w1 ++ seps ++ w2 ++ trail)
      = joinSegments [(w1.map tolower, [32]),
          (w2.map tolower, if trail = [] then [] else [32])] := by
  have hf : findFirstCharacter (w2 ++ trail) = 0 := findFirstCharacter_word w2 trail h2
  have e : w1 ++ seps ++ w2 ++ trail = w1 ++ (seps ++ (w2 ++ trail)) := by simp
  rw [e, normalize_word_append w1 _ h1.2, normalize_separators seps (w2 ++ trail) hne hs hf,
    normalize_word_append w2 trail h2.2, normalize_trailing trail ht]
  simp [joinSegments]

theorem segmentChain_two_words (v1 v2 t : List Nat) (h1 : IsWord v1) (h2 : IsWord v2)
    (ht : ∀ x ∈ t, shouldSkipCharacter x = true) :
    SegmentChain [(v1, [32]), (v2, t)] := by
  have l1 : 0 < v1.length := List.length_pos.2 h1.1
  have l2 : 0 < v2.length := List.length_pos.2 h2.1
  refine ⟨⟨h1.2, by simp [shouldSkipCharacter_space], by simp⟩, by simp, h2.1, ?_⟩
  exact ⟨h2.2, ht, by simp only; omega⟩

/-- C15 (counterexample). On the input `"hi there"` the result returned by
`calculateTriplets` is not empty: it has three slots, each with empty text and count
zero. On the two-word input `" a b"` the word count reported is 3, the table holds the key
`" a b"` and the first slot of the result is filled; on the two-word input `"a b."` the
word count reported is 3. -/
theorem calculateTriplets_two_words_counterexample :
    calculateTriplets 1 (bytes "hi there")
        = some { result := [⟨[], 0⟩, ⟨[], 0⟩, ⟨[], 0⟩], numberOfWords := 2, map := [] }
      ∧ calculateTriplets 1 (bytes " a b")
        = some { result := [⟨bytes " a b", 1⟩, ⟨[], 0⟩, ⟨[], 0⟩], numberOfWords := 3,
                 map := [(bytes " a b", 1)] }
      ∧ calculateTriplets 1 (bytes "a b.")
        = some { result := [⟨[], 0⟩, ⟨[], 0⟩, ⟨[], 0⟩], numberOfWords := 3, map := [] } := by
  decide

/-- C15 (amended). For every input made of exactly two words that does not begin with a
separator (two words, a run of separators between them, and possibly separators after the
second), and every worker count `N ≥ 1`, `calculateTriplets` returns, leaves the table
empty, and returns the result with its three slots, none of them filled: each slot has
empty text and count zero. When the input does not end with a separator either, as
`"hi there"`, the word count reported is 2. -/
theorem calculateTriplets_two_words (numThreads : Nat) (w1 seps w2 trail : List Nat)
    (hN : 1 ≤ numThreads) (h1 : IsWord w1) (h2 : IsWord w2)
    (hne : seps ≠ []) (hs : ∀ x ∈ seps, shouldSkipCharacter x = true)
    (ht : ∀ x ∈ trail, shouldSkipCharacter x = true) :
    ∃ outcome, calculateTriplets numThreads (w1 ++ seps ++ w2 ++ trail) = some outcome
      ∧ outcome.map = []
      ∧ outcome.result = [⟨[], 0⟩, ⟨[], 0⟩, ⟨[], 0⟩]
      ∧ (trail = [] → outcome.numberOfWords = 2) := by
  obtain ⟨r, hr, _, _, htext, hwords⟩ := sanitizeBuffer_spec (w1 ++ seps ++ w2 ++ trail)
  have hc1 := isWord_map_tolower w1 h1
  have hc2 := isWord_map_tolower w2 h2
  have htail : ∀ x ∈ (if trail = [] then [] else [32] : List Nat),
      shouldSkipCharacter x = true := by
    intro x hx
    by_cases h : trail = []
    · simp [h] at hx
    · simp only [h, if_false, List.mem_singleton] at hx
      rw [hx]
      exact shouldSkipCharacter_space
  rw [normalize_two_words_trailing w1 seps w2 trail h1 h2 hne hs ht] at htext hwords
  have hchain := segmentChain_two_words (w1.map tolower) (w2.map tolower)
    (if trail = [] then [] else [32]) hc1 hc2 htail
  have hcount : (joinSegments [(w1.map tolower, [32]),
      (w2.map tolower, if trail = [] then [] else [32])]).count 32
      = 1 + (if trail = [] then 0 else 1) := by
    simp only [joinSegments, List.count_append, count_space_word _ hc1.2,
      count_space_word _ hc2.2, List.count_nil]
    by_cases h : trail = [] <;> simp [h]
  have hW : r.words = 2 + (if trail = [] then 0 else 1) := by
    rw [hwords, hcount]
    omega
  have hWle : 2 ≤ r.words ∧ r.words ≤ 3 := by
    rw [hW]
    by_cases h : trail = [] <;> simp [h]
  have hbuckets : maxNumberOfBuckets r.words * 8 < 2 ^ 64 := by
    rw [maxNumberOfBuckets_of_ge r.words hWle.1 (by omega)]
    omega
  have hkeys : (keysOf (segments r.text)).foldl increment [] = [] := by
    have e1 := calculateTripletsForOneThread_eq r.text []
    have e2 := calculateTripletsForOneThread_segments _ [] hchain
    rw [← htext, e1] at e2
    exact Option.some.inj e2
  refine ⟨_, calculateTriplets_eq numThreads _ hN r hr hbuckets, ?_, ?_, ?_⟩
  · exact hkeys
  · show selectTop ((keysOf (segments r.text)).foldl increment []) = _
    rw [hkeys]
    rfl
  · intro h
    show r.words = 2
    rw [hW, if_pos h]

/-- Witness for C15: the input `"hi there"` with four workers, and the input
`"hi there."` with two. -/
theorem calculateTriplets_two_words_witness :
    (∃ outcome, calculateTriplets 4 (bytes "hi" ++ bytes " " ++ bytes "there" ++ []) = some outcome
      ∧ outcome.map = []
      ∧ outcome.result = [⟨[], 0⟩, ⟨[], 0⟩, ⟨[], 0⟩]
      ∧ (([] : List Nat) = [] → outcome.numberOfWords = 2))
    ∧ (∃ outcome, calculateTriplets 2 (bytes "hi" ++ bytes " " ++ bytes "there" ++ bytes ".")
          = some outcome
      ∧ outcome.map = []
      ∧ outcome.result = [⟨[], 0⟩, ⟨[], 0⟩, ⟨[], 0⟩]
      ∧ (bytes "." = [] → outcome.numberOfWords = 2)) :=
  ⟨calculateTriplets_two_words 4 (bytes "hi") (bytes " ") (bytes "there") [] (by decide)
      ⟨by decide, by decide⟩ ⟨by decide, by decide⟩ (by decide) (by decide) (by decide),
    calculateTriplets_two_words 2 (bytes "hi") (bytes " ") (bytes "there") (bytes ".")
      (by decide) ⟨by decide, by decide⟩ ⟨by decide, by decide⟩ (by decide) (by decide)
      (by decide)⟩

end TripletChallenge
